import Mathlib

/-!
# Binary deserialization (`eosio/from_bin.hpp`)

A shallow embedding of the decoders of `include/eosio/from_bin.hpp` and
theorems about them.

Conventions of the embedding

* A C++ function `result<void> f(T& dest, S& stream)` mutates its destination and
  the stream cursor and returns a `result<void>`.  It becomes a Lean function
  `f : T → Stream → Ret T` taking the pre-call destination and the unread bytes
  and returning the result code together with the post-call destination and the
  post-call unread bytes (`Ret.r`, `Ret.dest`, `Ret.stream`), on success and on
  failure alike.
* `uint32_t` / `uint64_t` values are natural numbers, every operation that can
  leave the range is reduced `% 2 ^ 32` / `% 2 ^ 64` explicitly.  `int32_t` values
  are integers, `to_int32` is the conversion from `uint32_t`.
* Memory is unbounded: `resize` always succeeds (the exceptions `std::length_error`
  and `std::bad_alloc` are outside the model), hence `v.size() * sizeof(T)` is the
  exact product, the byte size of an existing vector never wraps `size_t`.
-/

namespace eosio

/-! ## Data model -/

/-- One octet of the wire. -/
abbrev Byte := Fin 256

/-- Modelled from the spec: the error kinds of `stream_error` (declared in
`eosio/stream.hpp`, which is not part of the sources).  The spec names
`invalid_varuint_encoding` and `bad_variant_index` and speaks of the stream's own
error for insufficient bytes, called `overrun` here. -/
inductive stream_error where
  | overrun
  | invalid_varuint_encoding
  | bad_variant_index
deriving DecidableEq, Repr

/-- The type `result<void>`: success or an error code. -/
abbrev result := Except stream_error Unit

instance : DecidableEq result := fun a b =>
  match a, b with
  | .ok (), .ok () => isTrue rfl
  | .error e, .error f =>
    if h : e = f then isTrue (by rw [h]) else isFalse (fun h2 => h (Except.error.inj h2))
  | .ok (), .error _ => isFalse (fun h => Except.noConfusion h)
  | .error _, .ok () => isFalse (fun h => Except.noConfusion h)

/-- Modelled from the spec: the stream (`eosio/stream.hpp` is not part of the
sources) is a cursor over a byte buffer; only the unread bytes matter to the
decoders, so a stream is the list of its unread bytes. -/
abbrev Stream := List Byte

/-- Outcome of a call `f(dest, stream)`: the returned `result<void>`, the destination
after the call and the unread bytes after the call. -/
structure Ret (α : Type) where
  r : result
  dest : α
  stream : Stream
deriving DecidableEq

/-- Modelled from the spec: `stream.check_available(n)` "fails without consuming if
fewer than n bytes remain". -/
def check_available (stream : Stream) (n : Nat) : result :=
  if stream.length < n then .error stream_error.overrun else .ok ()

/-- Modelled from the spec: `stream.read(dest, n)` "fails if fewer than n bytes
remain"; otherwise it hands out the next `n` bytes and advances the cursor past
them.  A failed read leaves the cursor where it was and writes nothing.  The value
is the result code, the bytes copied out and the unread bytes. -/
def stream_read (stream : Stream) (n : Nat) : result × List Byte × Stream :=
  if stream.length < n then (.error stream_error.overrun, [], stream)
  else (.ok (), stream.take n, stream.drop n)

/-! ## Variable-length integers -/

/-- The `do ... while` loop of `varuint32_from_bin`, entered with the current `dest`
and `shift`.  `from_bin(b, stream)` on a `uint8_t` is `stream.read(&b, 1)`: it fails
on an exhausted stream and otherwise takes the next byte. -/
def varuint32_loop (dest shift : Nat) : Stream → Ret Nat
  | [] =>
    if shift ≥ 35 then ⟨.error stream_error.invalid_varuint_encoding, dest, []⟩
    else ⟨.error stream_error.overrun, dest, []⟩
  | b :: rest =>
    if shift ≥ 35 then ⟨.error stream_error.invalid_varuint_encoding, dest, b :: rest⟩
    else
      let dest1 := dest ||| (((b.val &&& 0x7f) <<< shift) % 2 ^ 32)
      if b.val &&& 0x80 ≠ 0 then varuint32_loop dest1 (shift + 7) rest
      else ⟨.ok (), dest1, rest⟩

/-- The function `varuint32_from_bin(uint32_t& dest, S& stream)`. -/
def varuint32_from_bin (_dest : Nat) (stream : Stream) : Ret Nat :=
  varuint32_loop 0 0 stream

/-- The `do ... while` loop of `varuint64_from_bin`. -/
def varuint64_loop (dest shift : Nat) : Stream → Ret Nat
  | [] =>
    if shift ≥ 70 then ⟨.error stream_error.invalid_varuint_encoding, dest, []⟩
    else ⟨.error stream_error.overrun, dest, []⟩
  | b :: rest =>
    if shift ≥ 70 then ⟨.error stream_error.invalid_varuint_encoding, dest, b :: rest⟩
    else
      let dest1 := dest ||| (((b.val &&& 0x7f) <<< shift) % 2 ^ 64)
      if b.val &&& 0x80 ≠ 0 then varuint64_loop dest1 (shift + 7) rest
      else ⟨.ok (), dest1, rest⟩

/-- The function `varuint64_from_bin(uint64_t& dest, S& stream)`. -/
def varuint64_from_bin (_dest : Nat) (stream : Stream) : Ret Nat :=
  varuint64_loop 0 0 stream

/-- Modelled from the spec: the groups of the `varuint` wire encoding of `n` ("low 7
bits are data, high bit = continuation; least-significant group first"), minimal: a
further group is emitted only while payload remains.  The encoder itself
(`to_bin.hpp`) is not part of the sources.  `fuel` bounds the number of groups and
`n ≤ fuel` is always enough. -/
def varuint_groups : Nat → Nat → List Byte
  | 0, n => [⟨n % 128, by omega⟩]
  | fuel + 1, n =>
    if n < 128 then [⟨n % 128, by omega⟩]
    else ⟨n % 128 + 128, by omega⟩ :: varuint_groups fuel (n / 128)

/-- Modelled from the spec: the minimal `varuint` encoding of `n`. -/
def varuint_encode (n : Nat) : List Byte := varuint_groups n n

/-- Conversion of a `uint32_t` bit pattern to `int32_t` (two's complement). -/
def to_int32 (u : Nat) : Int := if u < 2 ^ 31 then (u : Int) else (u : Int) - 2 ^ 32

/-- The operator `~` on a `uint32_t`. -/
def not32 (v : Nat) : Nat := 0xffffffff - v

/-- The function `varint32_from_bin(int32_t& result, S& stream)`.  The local `v` is
uninitialised in the source; `varuint32_from_bin` overwrites it before reading it. -/
def varint32_from_bin (result : Int) (stream : Stream) : Ret Int :=
  let p := varuint32_from_bin 0 stream
  match p.r with
  | .error e => ⟨.error e, result, p.stream⟩
  | .ok _ =>
    let v := p.dest
    if v &&& 1 ≠ 0 then ⟨.ok (), to_int32 ((not32 v >>> 1) ||| 0x80000000), p.stream⟩
    else ⟨.ok (), to_int32 (v >>> 1), p.stream⟩

/-- Classic zigzag decoding as the specification words it:
`(v >> 1) XOR (0 - (v & 1))` on 32 bits, read as a two's-complement `int32_t`.
This definition follows the specification, not the source; it is what
`varint32_from_bin` is compared with. -/
def zigzag32_spec (v : Nat) : Int :=
  to_int32 ((v >>> 1) ^^^ ((2 ^ 32 - (v &&& 1)) % 2 ^ 32))

/-! ## Sequences and text -/

/-- What the decoders need of an arithmetic type `T`: `sizeof(T)`, the
value-initialised `T()` and the object whose representation in memory is a given
run of `sizeof(T)` bytes (no byte-order conversion takes place). -/
structure arithmetic (T : Type) where
  sizeof : Nat
  zero : T
  of_bytes : List Byte → T

/-- The call `v.resize(n)` of `std::vector` and `std::string`: the first `n` elements
are kept, missing ones are value-initialised (`x`). -/
def resize {α : Type} (v : List α) (n : Nat) (x : α) : List α :=
  v.take n ++ List.replicate (n - v.length) x

/-- The generic `from_bin(T& obj, S& stream)` for arithmetic `T`:
`stream.read((char*)(&obj), sizeof(obj))`. -/
def from_bin_arithmetic {T : Type} (A : arithmetic T) (obj : T) (stream : Stream) : Ret T :=
  match stream_read stream A.sizeof with
  | (.error e, _, s) => ⟨.error e, obj, s⟩
  | (.ok _, bytes, s) => ⟨.ok (), A.of_bytes bytes, s⟩

/-- The `n` objects laid out one after the other in a run of raw bytes: what
`stream.read((char*)v.data(), n * sizeof(T))` leaves in a vector of `n` elements. -/
def of_raw {T : Type} (A : arithmetic T) : Nat → List Byte → List T
  | 0, _ => []
  | n + 1, bytes => A.of_bytes (bytes.take A.sizeof) :: of_raw A n (bytes.drop A.sizeof)

/-- The tail of the arithmetic branch, common to both widths of the length prefix:
availability check on `v.size() * sizeof(T)`, `v.resize(size)`, bulk read of
`v.size() * sizeof(T)` bytes. -/
def vector_arithmetic_body {T : Type} (A : arithmetic T) (v : List T) (p : Ret Nat) :
    Ret (List T) :=
  match p.r with
  | .error e => ⟨.error e, v, p.stream⟩
  | .ok _ =>
    match check_available p.stream (v.length * A.sizeof) with
    | .error e => ⟨.error e, v, p.stream⟩
    | .ok _ =>
      let v1 := resize v p.dest A.zero
      match stream_read p.stream (v1.length * A.sizeof) with
      | (.error e, _, s) => ⟨.error e, v1, s⟩
      | (.ok _, bytes, s) => ⟨.ok (), of_raw A v1.length bytes, s⟩

/-- The function `from_bin(std::vector<T>& v, S& stream)` for arithmetic `T`;
`sizeof_size_t` is `sizeof(size_t)` of the host. -/
def from_bin_vector_arithmetic {T : Type} (A : arithmetic T) (sizeof_size_t : Nat)
    (v : List T) (stream : Stream) : Ret (List T) :=
  if sizeof_size_t ≥ 8 then vector_arithmetic_body A v (varuint64_from_bin 0 stream)
  else vector_arithmetic_body A v (varuint32_from_bin 0 stream)

/-- The element loop `for (i = 0; i < size; ++i) from_bin(v[i], stream)` over the
elements still to decode; it stops at the first failure. -/
def from_bin_elements {T : Type} (from_bin_T : T → Stream → Ret T) :
    List T → Stream → Ret (List T)
  | [], stream => ⟨.ok (), [], stream⟩
  | x :: xs, stream =>
    let o := from_bin_T x stream
    match o.r with
    | .error e => ⟨.error e, o.dest :: xs, o.stream⟩
    | .ok _ =>
      let o2 := from_bin_elements from_bin_T xs o.stream
      ⟨o2.r, o.dest :: o2.dest, o2.stream⟩

/-- The function `from_bin(std::vector<T>& v, S& stream)` for non-arithmetic `T`, given
the value-initialised `T()` and the decoder `from_bin` of `T`. -/
def from_bin_vector {T : Type} (dflt : T) (from_bin_T : T → Stream → Ret T)
    (v : List T) (stream : Stream) : Ret (List T) :=
  let p := varuint32_from_bin 0 stream
  match p.r with
  | .error e => ⟨.error e, v, p.stream⟩
  | .ok _ => from_bin_elements from_bin_T (resize v p.dest dflt) p.stream

/-- The function `from_bin(std::string& obj, S& stream)`; a `char` is a byte. -/
def from_bin_string (obj : List Byte) (stream : Stream) : Ret (List Byte) :=
  let p := varuint32_from_bin 0 stream
  match p.r with
  | .error e => ⟨.error e, obj, p.stream⟩
  | .ok _ =>
    let obj1 := resize obj p.dest 0
    match stream_read p.stream obj1.length with
    | (.error e, _, s) => ⟨.error e, obj1, s⟩
    | (.ok _, bytes, s) => ⟨.ok (), bytes, s⟩

/-! ## Variants -/

/-- A value of `std::variant<T_0, ..., T_(n-1)>`: the index of the active alternative
and its value. -/
abbrev variant {n : Nat} (T : Fin n → Type) := (k : Fin n) × T k

/-- The function `variant_from_bin<I>(v, i, stream)`, given for every alternative its
value-initialised object (`emplace`) and its decoder. -/
def variant_from_bin {n : Nat} {T : Fin n → Type} (dflt : (k : Fin n) → T k)
    (dec : (k : Fin n) → T k → Stream → Ret (T k)) (I : Nat) (v : variant T) (i : Nat)
    (stream : Stream) : Ret (variant T) :=
  if h : I < n then
    if i = I then
      let o := dec ⟨I, h⟩ (dflt ⟨I, h⟩) stream
      ⟨o.r, ⟨⟨I, h⟩, o.dest⟩, o.stream⟩
    else variant_from_bin dflt dec (I + 1) v i stream
  else ⟨.error stream_error.bad_variant_index, v, stream⟩
termination_by n - I

/-- The function `from_bin(std::variant<Ts...>& obj, S& stream)`. -/
def from_bin_variant {n : Nat} {T : Fin n → Type} (dflt : (k : Fin n) → T k)
    (dec : (k : Fin n) → T k → Stream → Ret (T k)) (obj : variant T) (stream : Stream) :
    Ret (variant T) :=
  let p := varuint32_from_bin 0 stream
  match p.r with
  | .error e => ⟨.error e, obj, p.stream⟩
  | .ok _ => variant_from_bin dflt dec 0 obj p.dest p.stream

/-- The arithmetic type `uint8_t`. -/
def uint8 : arithmetic Byte := ⟨1, 0, fun bytes => bytes.headD 0⟩

/-! ## Definitions used by the statements and the proofs -/

/-- The sum the specification speaks of: `(b_i & 0x7f) * 2^(7*i)` over a run of bytes,
the first of which has index `i`, as an unbounded integer. -/
def payload_sum_from (i : Nat) : List Byte → Nat
  | [] => 0
  | b :: bs => (b.val &&& 0x7f) * 2 ^ (7 * i) + payload_sum_from (i + 1) bs

/-- The sum `(b_0 & 0x7f) + (b_1 & 0x7f) * 2^7 + ...` over a run of bytes. -/
def payload_sum (bs : List Byte) : Nat := payload_sum_from 0 bs

/-- Both `do ... while` loops at once, for the proofs: accumulator of `w` bits, shift
limit `lim`. -/
def varuint_loop (w lim dest shift : Nat) : Stream → Ret Nat
  | [] =>
    if shift ≥ lim then ⟨.error stream_error.invalid_varuint_encoding, dest, []⟩
    else ⟨.error stream_error.overrun, dest, []⟩
  | b :: rest =>
    if shift ≥ lim then ⟨.error stream_error.invalid_varuint_encoding, dest, b :: rest⟩
    else
      let dest1 := dest ||| (((b.val &&& 0x7f) <<< shift) % 2 ^ w)
      if b.val &&& 0x80 ≠ 0 then varuint_loop w lim dest1 (shift + 7) rest
      else ⟨.ok (), dest1, rest⟩

/-- The payload of a run of bytes whose first group sits at bit offset `shift`. -/
def payload_at (shift : Nat) : List Byte → Nat
  | [] => 0
  | b :: bs => (b.val % 128) * 2 ^ shift + payload_at (shift + 7) bs

/-- The alternative types of an example `std::variant<uint8_t, std::string,
std::vector<uint8_t>>`. -/
def example_T : Fin 3 → Type
  | 0 => Byte
  | 1 => List Byte
  | 2 => List Byte

/-- The value-initialised alternatives of the example variant. -/
def example_dflt : (k : Fin 3) → example_T k
  | 0 => (0 : Byte)
  | 1 => ([] : List Byte)
  | 2 => ([] : List Byte)

/-- The decoders of the alternatives of the example variant, for a host with an 8-byte
`size_t`. -/
def example_dec : (k : Fin 3) → example_T k → Stream → Ret (example_T k)
  | 0 => from_bin_arithmetic uint8
  | 1 => from_bin_string
  | 2 => from_bin_vector_arithmetic uint8 8

/-! ## Pairs, optionals and aggregates -/

/-- The function `from_bin(std::pair<First, Second>& obj, S& stream)`, given the decoders
of the two components. -/
def from_bin_pair {A B : Type} (from_bin_A : A → Stream → Ret A)
    (from_bin_B : B → Stream → Ret B) (obj : A × B) (stream : Stream) : Ret (A × B) :=
  let o1 := from_bin_A obj.1 stream
  match o1.r with
  | .error e => ⟨.error e, (o1.dest, obj.2), o1.stream⟩
  | .ok _ =>
    let o2 := from_bin_B obj.2 o1.stream
    ⟨o2.r, (o1.dest, o2.dest), o2.stream⟩

/-- An aggregate with `n` reflected fields of types `T 0, ..., T (n - 1)`, in declared
order: the value of every field. -/
abbrev aggregate {n : Nat} (T : Fin n → Type) := (k : Fin n) → T k

/-- The lambda `from_bin` hands to `for_each_field`, called on field `k`; the state is the
local `r`, the object and the stream: `if (r) r = from_bin(field, stream);`. -/
def field_from_bin {n : Nat} {T : Fin n → Type}
    (dec : (k : Fin n) → T k → Stream → Ret (T k)) (st : Ret (aggregate T)) (k : Fin n) :
    Ret (aggregate T) :=
  match st.r with
  | .error _ => st
  | .ok _ =>
    let o := dec k (st.dest k) st.stream
    ⟨o.r, Function.update st.dest k o.dest, o.stream⟩

/-- The generic `from_bin(T& obj, S& stream)` for a non-arithmetic `T`, given the decoder
of every field.  Modelled from the spec: `for_each_field` (the reflection provider is not
part of the sources) calls the lambda once for "each descriptor in order". -/
def from_bin_struct {n : Nat} {T : Fin n → Type}
    (dec : (k : Fin n) → T k → Stream → Ret (T k)) (obj : aggregate T) (stream : Stream) :
    Ret (aggregate T) :=
  (List.finRange n).foldl (field_from_bin dec) ⟨.ok (), obj, stream⟩

/-- The arithmetic type `int32_t` of a little-endian host. -/
def int32_le : arithmetic Int :=
  ⟨4, 0, fun bytes => to_int32 ((bytes.getD 0 0).val + 256 * (bytes.getD 1 0).val
    + 65536 * (bytes.getD 2 0).val + 16777216 * (bytes.getD 3 0).val)⟩

/-- The field types of an example aggregate `struct { int32_t a; std::string b; }`. -/
def example_field_T : Fin 2 → Type
  | 0 => Int
  | 1 => List Byte

/-- The field decoders of the example aggregate. -/
def example_field_dec : (k : Fin 2) → example_field_T k → Stream → Ret (example_field_T k)
  | 0 => from_bin_arithmetic int32_le
  | 1 => from_bin_string

/-- An instance of the example aggregate: `a = 7`, `b = "x"`. -/
def example_obj : aggregate example_field_T
  | 0 => (7 : Int)
  | 1 => ([120] : List Byte)

/-- The encodings of `a = 42` and `b = "abc"`. -/
def example_enc : Fin 2 → List Byte
  | 0 => [0x2a, 0x00, 0x00, 0x00]
  | 1 => [0x03, 97, 98, 99]

/-- The decoded example aggregate: `a = 42`, `b = "abc"`. -/
def example_val : aggregate example_field_T
  | 0 => (42 : Int)
  | 1 => ([97, 98, 99] : List Byte)

/-- A byte sequence with the continuation bit of its last byte set. -/
def mark_last : List Byte → List Byte
  | [] => []
  | [b] => [b ||| 0x80]
  | b :: b2 :: bs => b :: mark_last (b2 :: bs)

/-- A non-minimal encoding of `n`: the minimal one with the continuation bit set on its
last byte, followed by a byte `0x00`. -/
def varuint_encode_padded (n : Nat) : List Byte := mark_last (varuint_encode n) ++ [0x00]

/-- The stream positions of an example decode of a `std::vector<std::string>` with two
elements, `"A"` and `"BC"`, followed by the byte `09`. -/
def example_positions : Nat → Stream
  | 0 => [0x01, 65, 0x02, 66, 67, 0x09]
  | 1 => [0x02, 66, 67, 0x09]
  | _ => [0x09]

/-- The elements of the example vector. -/
def example_elements : Nat → List Byte
  | 0 => [65]
  | _ => [66, 67]

/-- The stream positions of an example decode of the example aggregate whose second field
has a length prefix that exceeds the remaining bytes. -/
def example_field_positions : Nat → Stream
  | 0 => [0x2a, 0x00, 0x00, 0x00, 0x09, 97, 98, 99]
  | _ => [0x09, 97, 98, 99]

/-! ## Bytes and bit operations -/

theorem byte_and_7f (b : Byte) : b.val &&& 0x7f = b.val % 128 :=
  Nat.and_pow_two_sub_one_eq_mod b.val 7

set_option maxRecDepth 100000 in
theorem byte_and_80 (b : Byte) : b.val &&& 0x80 ≠ 0 ↔ 128 ≤ b.val := by
  revert b
  decide

/-- Or-ing a group above the bits already set is an addition. -/
theorem or_shifted_eq_add {dest shift : Nat} (h : dest < 2 ^ shift) (c : Nat) :
    dest ||| (c * 2 ^ shift) = dest + c * 2 ^ shift := by
  have := Nat.mul_add_lt_is_or h c
  rw [Nat.or_comm, Nat.mul_comm c, ← this, Nat.add_comm]

/-- One accumulation step of the loops, in arithmetic: the group is added and the
sum is reduced to the width of the accumulator. -/
theorem acc_step (w shift dest c : Nat) (h1 : dest < 2 ^ shift) (h2 : dest < 2 ^ w) :
    dest ||| ((c * 2 ^ shift) % 2 ^ w) = (dest + c * 2 ^ shift) % 2 ^ w := by
  rcases Nat.le_total shift w with hle | hle
  · obtain ⟨d, rfl⟩ := Nat.exists_eq_add_of_le hle
    have hp : 2 ^ (shift + d) = 2 ^ d * 2 ^ shift := by rw [Nat.pow_add, Nat.mul_comm]
    rw [hp, Nat.mul_mod_mul_right, or_shifted_eq_add h1]
    have hc : c = 2 ^ d * (c / 2 ^ d) + c % 2 ^ d := (Nat.div_add_mod c (2 ^ d)).symm
    have hlt : dest + c % 2 ^ d * 2 ^ shift < 2 ^ d * 2 ^ shift := by
      have h3 : c % 2 ^ d < 2 ^ d := Nat.mod_lt _ (Nat.two_pow_pos d)
      have h4 : (c % 2 ^ d + 1) * 2 ^ shift ≤ 2 ^ d * 2 ^ shift :=
        Nat.mul_le_mul_right _ h3
      rw [Nat.add_mul, Nat.one_mul] at h4
      omega
    have hsplit : dest + c * 2 ^ shift
        = dest + c % 2 ^ d * 2 ^ shift + (2 ^ d * 2 ^ shift) * (c / 2 ^ d) := by
      conv_lhs => rw [hc]
      ring
    rw [hsplit, Nat.add_mul_mod_self_left, Nat.mod_eq_of_lt hlt]
  · obtain ⟨d, rfl⟩ := Nat.exists_eq_add_of_le hle
    have hp : c * 2 ^ (w + d) = 2 ^ w * (c * 2 ^ d) := by rw [Nat.pow_add]; ring
    rw [hp, Nat.mul_mod_right, Nat.or_zero, Nat.add_mul_mod_self_left, Nat.mod_eq_of_lt h2]

/-! ## The loops -/

theorem varuint32_loop_eq (dest shift : Nat) (s : Stream) :
    varuint32_loop dest shift s = varuint_loop 32 35 dest shift s := by
  induction s generalizing dest shift with
  | nil => rfl
  | cons b rest ih =>
    simp only [varuint32_loop, varuint_loop]
    split
    · rfl
    · split
      · exact ih _ _
      · rfl

theorem varuint64_loop_eq (dest shift : Nat) (s : Stream) :
    varuint64_loop dest shift s = varuint_loop 64 70 dest shift s := by
  induction s generalizing dest shift with
  | nil => rfl
  | cons b rest ih =>
    simp only [varuint64_loop, varuint_loop]
    split
    · rfl
    · split
      · exact ih _ _
      · rfl

/-- The loop of `varuint32_from_bin` written with the byte read the source makes,
`from_bin(b, stream)` on the `uint8_t` local `b`. -/
theorem varuint32_loop_unfold (dest shift : Nat) (b0 : Byte) (s : Stream) :
    varuint32_loop dest shift s =
      if shift ≥ 35 then ⟨.error stream_error.invalid_varuint_encoding, dest, s⟩
      else
        match (from_bin_arithmetic uint8 b0 s).r with
        | .error e => ⟨.error e, dest, (from_bin_arithmetic uint8 b0 s).stream⟩
        | .ok _ =>
          if (from_bin_arithmetic uint8 b0 s).dest.val &&& 0x80 ≠ 0 then
            varuint32_loop
              (dest ||| ((((from_bin_arithmetic uint8 b0 s).dest.val &&& 0x7f) <<< shift)
                % 2 ^ 32))
              (shift + 7) (from_bin_arithmetic uint8 b0 s).stream
          else
            ⟨.ok (),
              dest ||| ((((from_bin_arithmetic uint8 b0 s).dest.val &&& 0x7f) <<< shift)
                % 2 ^ 32),
              (from_bin_arithmetic uint8 b0 s).stream⟩ := by
  cases s with
  | nil =>
    simp only [varuint32_loop, from_bin_arithmetic, stream_read, uint8]
    split <;> rfl
  | cons b rest =>
    simp only [varuint32_loop, from_bin_arithmetic, stream_read, uint8]
    split
    · rfl
    · simp

/-- The loop of `varuint64_from_bin` written with the byte read the source makes. -/
theorem varuint64_loop_unfold (dest shift : Nat) (b0 : Byte) (s : Stream) :
    varuint64_loop dest shift s =
      if shift ≥ 70 then ⟨.error stream_error.invalid_varuint_encoding, dest, s⟩
      else
        match (from_bin_arithmetic uint8 b0 s).r with
        | .error e => ⟨.error e, dest, (from_bin_arithmetic uint8 b0 s).stream⟩
        | .ok _ =>
          if (from_bin_arithmetic uint8 b0 s).dest.val &&& 0x80 ≠ 0 then
            varuint64_loop
              (dest ||| ((((from_bin_arithmetic uint8 b0 s).dest.val &&& 0x7f) <<< shift)
                % 2 ^ 64))
              (shift + 7) (from_bin_arithmetic uint8 b0 s).stream
          else
            ⟨.ok (),
              dest ||| ((((from_bin_arithmetic uint8 b0 s).dest.val &&& 0x7f) <<< shift)
                % 2 ^ 64),
              (from_bin_arithmetic uint8 b0 s).stream⟩ := by
  cases s with
  | nil =>
    simp only [varuint64_loop, from_bin_arithmetic, stream_read, uint8]
    split <;> rfl
  | cons b rest =>
    simp only [varuint64_loop, from_bin_arithmetic, stream_read, uint8]
    split
    · rfl
    · simp

/-- The fuel of the encoder is immaterial once it covers the number encoded. -/
theorem varuint_groups_fuel (f1 : Nat) :
    ∀ (f2 n : Nat), n ≤ f1 → n ≤ f2 → varuint_groups f1 n = varuint_groups f2 n := by
  induction f1 with
  | zero =>
    intro f2 n h1 _
    have hn : n = 0 := by omega
    subst hn
    cases f2 <;> simp [varuint_groups]
  | succ f1 ih =>
    intro f2 n h1 h2
    cases f2 with
    | zero =>
      have hn : n = 0 := by omega
      subst hn
      simp [varuint_groups]
    | succ f2 =>
      simp only [varuint_groups]
      split
      · rfl
      · rw [ih f2 (n / 128) (by omega) (by omega)]

/-- The encoder, group by group: a number below 128 is one byte, any other number is its
low seven bits with the continuation bit, followed by the encoding of the rest. -/
theorem varuint_encode_unfold (n : Nat) :
    varuint_encode n =
      if n < 128 then [⟨n % 128, by omega⟩]
      else ⟨n % 128 + 128, by omega⟩ :: varuint_encode (n / 128) := by
  cases n with
  | zero => rfl
  | succ m =>
    simp only [varuint_encode, varuint_groups]
    split
    · rfl
    · rw [varuint_groups_fuel m ((m + 1) / 128) ((m + 1) / 128) (by omega) (Nat.le_refl _)]

theorem varuint_loop_limit (w lim dest shift : Nat) (s : Stream) (h : lim ≤ shift) :
    varuint_loop w lim dest shift s
      = ⟨.error stream_error.invalid_varuint_encoding, dest, s⟩ := by
  cases s <;> simp [varuint_loop, h]

theorem varuint_loop_last (w lim dest shift : Nat) (b : Byte) (rest : Stream)
    (h : shift < lim) (hb : b.val < 128) :
    varuint_loop w lim dest shift (b :: rest)
      = ⟨.ok (), dest ||| ((b.val % 128 * 2 ^ shift) % 2 ^ w), rest⟩ := by
  have h1 : ¬ (shift ≥ lim) := by omega
  have h2 : ¬ (b.val &&& 0x80 ≠ 0) := by rw [byte_and_80]; omega
  simp only [varuint_loop, h1, h2, if_false, byte_and_7f, Nat.shiftLeft_eq]

theorem varuint_loop_more (w lim dest shift : Nat) (b : Byte) (rest : Stream)
    (h : shift < lim) (hb : 128 ≤ b.val) :
    varuint_loop w lim dest shift (b :: rest)
      = varuint_loop w lim (dest ||| ((b.val % 128 * 2 ^ shift) % 2 ^ w)) (shift + 7) rest := by
  have h1 : ¬ (shift ≥ lim) := by omega
  have h2 : b.val &&& 0x80 ≠ 0 := by rw [byte_and_80]; omega
  simp only [varuint_loop, h1, if_false, byte_and_7f, Nat.shiftLeft_eq]
  rw [if_pos h2]

theorem group_lt (dest shift c : Nat) (h : dest < 2 ^ shift) (hc : c < 128) :
    dest + c * 2 ^ shift < 2 ^ (shift + 7) := by
  have h1 : (c + 1) * 2 ^ shift ≤ 128 * 2 ^ shift := Nat.mul_le_mul_right _ hc
  have h2 : 2 ^ (shift + 7) = 128 * 2 ^ shift := by rw [Nat.pow_add]; ring
  rw [Nat.add_mul, Nat.one_mul] at h1
  omega

/-- What a successful run of either loop has done: it has taken `k` bytes, at least
one and no more than the limit allows, and the accumulator holds the payload of
these bytes, added to what it held, reduced to `w` bits. -/
theorem varuint_loop_ok (w lim : Nat) (s : Stream) :
    ∀ (dest shift : Nat), dest < 2 ^ shift → dest < 2 ^ w →
      (varuint_loop w lim dest shift s).r = .ok () →
      ∃ k, 1 ≤ k ∧ k ≤ s.length ∧ shift + 7 * k < lim + 7 ∧
        (varuint_loop w lim dest shift s).stream = s.drop k ∧
        (varuint_loop w lim dest shift s).dest
          = (dest + payload_at shift (s.take k)) % 2 ^ w := by
  induction s with
  | nil =>
    intro dest shift _ _ h
    exfalso
    simp only [varuint_loop] at h
    split at h <;> simp at h
  | cons b rest ih =>
    intro dest shift h1 h2 h
    by_cases hl : lim ≤ shift
    · rw [varuint_loop_limit w lim dest shift _ hl] at h
      simp at h
    · have hl2 : shift < lim := by omega
      by_cases hb : b.val < 128
      · rw [varuint_loop_last w lim dest shift b rest hl2 hb]
        refine ⟨1, Nat.le_refl 1, by simp, by omega, by simp, ?_⟩
        simp only [List.take_succ_cons, List.take_zero, payload_at, Nat.add_zero]
        exact acc_step w shift dest _ h1 h2
      · have hb2 : 128 ≤ b.val := by omega
        rw [varuint_loop_more w lim dest shift b rest hl2 hb2] at h ⊢
        rw [acc_step w shift dest _ h1 h2] at h ⊢
        have hc : b.val % 128 < 128 := Nat.mod_lt _ (by decide)
        have h3 : (dest + b.val % 128 * 2 ^ shift) % 2 ^ w < 2 ^ (shift + 7) :=
          Nat.lt_of_le_of_lt (Nat.mod_le _ _) (group_lt dest shift _ h1 hc)
        have h4 : (dest + b.val % 128 * 2 ^ shift) % 2 ^ w < 2 ^ w :=
          Nat.mod_lt _ (Nat.two_pow_pos w)
        obtain ⟨k, hk1, hk2, hk3, hk4, hk5⟩ := ih _ _ h3 h4 h
        refine ⟨k + 1, by omega, by simp; omega, by omega, by simpa using hk4, ?_⟩
        rw [hk5]
        simp only [List.take_succ_cons, payload_at]
        rw [Nat.mod_add_mod, Nat.add_assoc]

/-- Either loop, run on the groups of `n` followed by anything, stops after the
groups with `n` added above the bits already accumulated, provided the total fits
the accumulator. -/
theorem varuint_loop_groups (w lim : Nat) (hw : w < lim) (rest : Stream) (fuel : Nat) :
    ∀ (n dest shift : Nat), n ≤ fuel → shift < lim → dest < 2 ^ shift →
      dest + n * 2 ^ shift < 2 ^ w →
      varuint_loop w lim dest shift (varuint_groups fuel n ++ rest)
        = ⟨.ok (), dest + n * 2 ^ shift, rest⟩ := by
  induction fuel with
  | zero =>
    intro n dest shift hn hs hd hfit
    have hn0 : n = 0 := by omega
    subst hn0
    have hd2 : dest < 2 ^ w := by omega
    simp only [varuint_groups, List.singleton_append]
    rw [varuint_loop_last w lim dest shift _ rest hs (by simp), acc_step w shift dest _ hd hd2]
    simp [Nat.mod_eq_of_lt hd2]
  | succ fuel ih =>
    intro n dest shift hn hs hd hfit
    have hd2 : dest < 2 ^ w := by omega
    by_cases h128 : n < 128
    · simp only [varuint_groups, h128, if_true, List.singleton_append]
      have hm : n % 128 = n := Nat.mod_eq_of_lt h128
      rw [varuint_loop_last w lim dest shift _ rest hs (by simp [hm, h128]),
        acc_step w shift dest _ hd hd2]
      simp only [hm, Nat.mod_mod]
      rw [Nat.mod_eq_of_lt hfit]
    · simp only [varuint_groups, h128, if_false, List.cons_append]
      have hc : n % 128 < 128 := Nat.mod_lt _ (by decide)
      have hval : (n % 128 + 128) % 128 = n % 128 := by omega
      have hsplit : n = 128 * (n / 128) + n % 128 := (Nat.div_add_mod n 128).symm
      have hpow : 2 ^ (shift + 7) = 128 * 2 ^ shift := by rw [Nat.pow_add]; ring
      have hq : 1 ≤ n / 128 := by omega
      have hn2 : n * 2 ^ shift
          = n % 128 * 2 ^ shift + n / 128 * 2 ^ (shift + 7) := by
        conv_lhs => rw [hsplit]
        rw [hpow]
        ring
      have hge : 2 ^ (shift + 7) ≤ n / 128 * 2 ^ (shift + 7) := Nat.le_mul_of_pos_left _ hq
      have hsw : shift + 7 ≤ w := by
        by_contra hcon
        have : 2 ^ w ≤ 2 ^ (shift + 7) := Nat.pow_le_pow_right (by decide) (by omega)
        omega
      have hpart : dest + n % 128 * 2 ^ shift < 2 ^ w := by omega
      rw [varuint_loop_more w lim dest shift _ _ hs (Nat.le_add_left 128 (n % 128)),
        acc_step w shift dest _ hd hd2]
      simp only [hval]
      rw [Nat.mod_eq_of_lt hpart,
        ih (n / 128) _ (shift + 7) (by omega) (by omega) (group_lt dest shift _ hd hc)
          (by omega)]
      rw [hn2, Nat.add_assoc]

theorem varuint_loop_continuation (w lim : Nat) (rest : Stream) (pre : Stream) :
    ∀ (dest shift : Nat), (∀ b ∈ pre, (b : Byte).val &&& 0x80 ≠ 0) →
      lim ≤ shift + 7 * pre.length →
      (varuint_loop w lim dest shift (pre ++ rest)).r
        = .error stream_error.invalid_varuint_encoding := by
  induction pre with
  | nil =>
    intro dest shift _ hlen
    rw [varuint_loop_limit w lim dest shift _ (by simpa using hlen)]
  | cons b pre ih =>
    intro dest shift hall hlen
    by_cases hl : lim ≤ shift
    · rw [varuint_loop_limit w lim dest shift _ hl]
    · have hb : 128 ≤ b.val := (byte_and_80 b).mp (hall b (List.mem_cons_self b pre))
      rw [List.cons_append, varuint_loop_more w lim dest shift b _ (by omega) hb]
      apply ih
      · intro c hc
        exact hall c (List.mem_cons_of_mem b hc)
      · simp only [List.length_cons] at hlen
        omega

theorem payload_sum_from_eq (bs : List Byte) :
    ∀ i, payload_sum_from i bs = payload_at (7 * i) bs := by
  induction bs with
  | nil => intro i; rfl
  | cons b bs ih =>
    intro i
    simp only [payload_sum_from, payload_at, byte_and_7f, ih (i + 1)]
    rfl

/-- A successful `varuint32_from_bin`, in terms of the bytes it has taken. -/
theorem varuint32_from_bin_ok (dest : Nat) (s : Stream)
    (h : (varuint32_from_bin dest s).r = .ok ()) :
    ∃ k, 1 ≤ k ∧ k ≤ 5 ∧ k ≤ s.length ∧
      (varuint32_from_bin dest s).stream = s.drop k ∧
      (varuint32_from_bin dest s).dest = payload_sum (s.take k) % 2 ^ 32 := by
  simp only [varuint32_from_bin, varuint32_loop_eq] at h ⊢
  obtain ⟨k, h1, h2, h3, h4, h5⟩ :=
    varuint_loop_ok 32 35 s 0 0 (by decide) (by decide) h
  refine ⟨k, h1, by omega, h2, h4, ?_⟩
  rw [h5, payload_sum, payload_sum_from_eq, Nat.zero_add]

theorem varuint32_from_bin_lt (dest : Nat) (s : Stream)
    (h : (varuint32_from_bin dest s).r = .ok ()) :
    (varuint32_from_bin dest s).dest < 2 ^ 32 := by
  obtain ⟨k, _, _, _, _, h5⟩ := varuint32_from_bin_ok dest s h
  rw [h5]
  exact Nat.mod_lt _ (by decide)

/-! ## C1: round trip of `varuint32` -/

/-- C1. For every `n < 2^32` and every trailing byte list `rest`, `varuint32_from_bin` run on
the minimal encoding of `n` followed by `rest` succeeds, yields exactly `n` and leaves
exactly `rest` unread, whatever the destination held before. -/
theorem varuint32_round_trip (n : Nat) (hn : n < 2 ^ 32) (dest : Nat) (rest : Stream) :
    varuint32_from_bin dest (varuint_encode n ++ rest) = ⟨.ok (), n, rest⟩ := by
  have h := varuint_loop_groups 32 35 (by decide) rest n n 0 0 (Nat.le_refl n) (by decide)
    (by decide) (by simpa using hn)
  simpa [varuint32_from_bin, varuint32_loop_eq, varuint_encode] using h

theorem varuint32_round_trip_witness :
    300 < 2 ^ 32 ∧ varuint_encode 300 = [0xac, 0x02] ∧
      varuint32_from_bin 7 (varuint_encode 300 ++ [0x09]) = ⟨.ok (), 300, [0x09]⟩ :=
  ⟨by decide, by decide, varuint32_round_trip 300 (by decide) 7 [0x09]⟩

/-! ## C2: over-long encodings -/

/-- C2. A stream whose first 5 bytes all have the continuation bit set makes
`varuint32_from_bin` fail with `invalid_varuint_encoding`; a stream whose first 10 bytes
all have it set makes `varuint64_from_bin` fail with `invalid_varuint_encoding`. -/
theorem overlong_varuint_rejected :
    (∀ (dest : Nat) (pre rest : Stream), pre.length = 5 →
      (∀ b ∈ pre, (b : Byte).val &&& 0x80 ≠ 0) →
      (varuint32_from_bin dest (pre ++ rest)).r
        = .error stream_error.invalid_varuint_encoding) ∧
    (∀ (dest : Nat) (pre rest : Stream), pre.length = 10 →
      (∀ b ∈ pre, (b : Byte).val &&& 0x80 ≠ 0) →
      (varuint64_from_bin dest (pre ++ rest)).r
        = .error stream_error.invalid_varuint_encoding) := by
  constructor
  · intro dest pre rest hlen hall
    rw [varuint32_from_bin, varuint32_loop_eq]
    exact varuint_loop_continuation 32 35 rest pre 0 0 hall (by omega)
  · intro dest pre rest hlen hall
    rw [varuint64_from_bin, varuint64_loop_eq]
    exact varuint_loop_continuation 64 70 rest pre 0 0 hall (by omega)

set_option maxRecDepth 100000 in
theorem overlong_varuint_rejected_witness :
    (varuint32_from_bin 0 ([0x80, 0x81, 0xff, 0x80, 0x80] ++ [0x01])).r
        = .error stream_error.invalid_varuint_encoding ∧
    (varuint64_from_bin 0
        ([0x80, 0x81, 0xff, 0x80, 0x80, 0x80, 0x80, 0x80, 0x80, 0x80] ++ [0x01])).r
        = .error stream_error.invalid_varuint_encoding :=
  ⟨overlong_varuint_rejected.1 0 [0x80, 0x81, 0xff, 0x80, 0x80] [0x01] rfl (by decide),
   overlong_varuint_rejected.2 0 [0x80, 0x81, 0xff, 0x80, 0x80, 0x80, 0x80, 0x80, 0x80, 0x80]
     [0x01] rfl (by decide)⟩

/-! ## C3: the value returned by `varuint32_from_bin` -/

/-- C3, as stated, fails: the five bytes `ff ff ff ff 7f` are accepted and consumed, their
payload is `2^35 - 1`, which does not fit in 32 bits, and the value returned is the
truncated `0xffffffff`. -/
theorem varuint32_truncates_fifth_group :
    (varuint32_from_bin 0 [0xff, 0xff, 0xff, 0xff, 0x7f]).r = .ok () ∧
    (varuint32_from_bin 0 [0xff, 0xff, 0xff, 0xff, 0x7f]).stream = [] ∧
    payload_sum [0xff, 0xff, 0xff, 0xff, 0x7f] = 2 ^ 35 - 1 ∧
    (varuint32_from_bin 0 [0xff, 0xff, 0xff, 0xff, 0x7f]).dest = 0xffffffff ∧
    (varuint32_from_bin 0 [0xff, 0xff, 0xff, 0xff, 0x7f]).dest
      ≠ payload_sum [0xff, 0xff, 0xff, 0xff, 0x7f] := by
  decide

/-- C3, amended. For every byte sequence `varuint32_from_bin` accepts, it has consumed `k`
bytes with `1 ≤ k ≤ 5`, and the value returned is the sum of `(b_i & 0x7f) * 2^(7*i)` over
these bytes reduced modulo `2^32`; it is below `2^32` and is the exact sum whenever that
sum fits in 32 bits. -/
theorem varuint32_value_mod (dest : Nat) (s : Stream)
    (h : (varuint32_from_bin dest s).r = .ok ()) :
    ∃ k, 1 ≤ k ∧ k ≤ 5 ∧ k ≤ s.length ∧
      (varuint32_from_bin dest s).stream = s.drop k ∧
      (varuint32_from_bin dest s).dest = payload_sum (s.take k) % 2 ^ 32 ∧
      (varuint32_from_bin dest s).dest < 2 ^ 32 ∧
      (payload_sum (s.take k) < 2 ^ 32 →
        (varuint32_from_bin dest s).dest = payload_sum (s.take k)) := by
  obtain ⟨k, h1, h2, h3, h4, h5⟩ := varuint32_from_bin_ok dest s h
  refine ⟨k, h1, h2, h3, h4, h5, ?_, ?_⟩
  · rw [h5]
    exact Nat.mod_lt _ (by decide)
  · intro hfit
    rw [h5, Nat.mod_eq_of_lt hfit]

theorem varuint32_value_mod_witness :
    ∃ k, 1 ≤ k ∧ k ≤ 5 ∧ k ≤ [(0xff : Byte), 0xff, 0xff, 0xff, 0x7f, 0x01].length ∧
      (varuint32_from_bin 0 [0xff, 0xff, 0xff, 0xff, 0x7f, 0x01]).stream
        = [(0xff : Byte), 0xff, 0xff, 0xff, 0x7f, 0x01].drop k ∧
      (varuint32_from_bin 0 [0xff, 0xff, 0xff, 0xff, 0x7f, 0x01]).dest
        = payload_sum ([(0xff : Byte), 0xff, 0xff, 0xff, 0x7f, 0x01].take k) % 2 ^ 32 ∧
      (varuint32_from_bin 0 [0xff, 0xff, 0xff, 0xff, 0x7f, 0x01]).dest < 2 ^ 32 ∧
      (payload_sum ([(0xff : Byte), 0xff, 0xff, 0xff, 0x7f, 0x01].take k) < 2 ^ 32 →
        (varuint32_from_bin 0 [0xff, 0xff, 0xff, 0xff, 0x7f, 0x01]).dest
          = payload_sum ([(0xff : Byte), 0xff, 0xff, 0xff, 0x7f, 0x01].take k)) :=
  varuint32_value_mod 0 [0xff, 0xff, 0xff, 0xff, 0x7f, 0x01] (by decide)

/-! ## C4 and C5: sign recovery of `varint32` -/

theorem xor_ones (n k : Nat) (h : k < 2 ^ n) : k ^^^ (2 ^ n - 1) = 2 ^ n - 1 - k := by
  apply Nat.eq_of_testBit_eq
  intro i
  have hsub : 2 ^ n - 1 - k = 2 ^ n - (k + 1) := by omega
  rw [hsub, Nat.testBit_xor, Nat.testBit_two_pow_sub_one, Nat.testBit_two_pow_sub_succ h]
  by_cases hi : i < n
  · simp [hi]
  · have hk : k.testBit i = false :=
      Nat.testBit_lt_two_pow
        (Nat.lt_of_lt_of_le h (Nat.pow_le_pow_right (by decide) (by omega)))
    simp [hi, hk]

/-- The operator `~` of the model flips the 32 bits of its operand. -/
theorem not32_eq_xor (v : Nat) (hv : v < 2 ^ 32) : not32 v = v ^^^ 0xffffffff :=
  (xor_ones 32 v hv).symm

/-- The bit pattern built for an odd raw value `v = 2 * k + 1`. -/
theorem odd_pattern (v : Nat) (hv : v < 2 ^ 32) (hodd : v % 2 = 1) :
    (not32 v >>> 1) ||| 0x80000000 = 2 ^ 32 - 1 - v / 2 := by
  have h1 : not32 v >>> 1 = (4294967295 - v) / 2 := by
    rw [Nat.shiftRight_eq_div_pow]
    rfl
  have h2 : (4294967295 - v) / 2 < 2 ^ 31 := by omega
  have h3 : (0x80000000 : Nat) = 1 * 2 ^ 31 := by decide
  rw [h1, h3, or_shifted_eq_add h2]
  omega

theorem to_int32_odd (v : Nat) (hv : v < 2 ^ 32) (hodd : v % 2 = 1) :
    to_int32 ((not32 v >>> 1) ||| 0x80000000) = -(((v + 1) / 2 : Nat) : Int) := by
  rw [odd_pattern v hv hodd, to_int32]
  have h : ¬ (2 ^ 32 - 1 - v / 2 < 2 ^ 31) := by omega
  rw [if_neg h]
  omega

theorem to_int32_even (v : Nat) (hv : v < 2 ^ 32) :
    to_int32 (v >>> 1) = ((v / 2 : Nat) : Int) := by
  have h1 : v >>> 1 = v / 2 := by rw [Nat.shiftRight_eq_div_pow]
  have h2 : v / 2 < 2 ^ 31 := by omega
  rw [h1, to_int32, if_pos h2]

/-- The two branches of `varint32_from_bin` give the zigzag value. -/
theorem sign_recovery_eq_zigzag (v : Nat) (hv : v < 2 ^ 32) :
    (if v &&& 1 ≠ 0 then to_int32 ((not32 v >>> 1) ||| 0x80000000) else to_int32 (v >>> 1))
      = zigzag32_spec v := by
  have hshift : v >>> 1 = v / 2 := by rw [Nat.shiftRight_eq_div_pow]
  rw [zigzag32_spec, Nat.and_one_is_mod]
  rcases Nat.mod_two_eq_zero_or_one v with h | h
  · rw [h]
    simp
  · rw [h, if_pos (by decide), odd_pattern v hv h, hshift]
    have hx := xor_ones 32 (v / 2) (by omega)
    have hm : (2 ^ 32 - 1) % 2 ^ 32 = 2 ^ 32 - 1 := by decide
    rw [hm, hx]

theorem varint32_from_bin_unfold (result : Int) (stream : Stream) (d0 v : Nat) (rest : Stream)
    (h : varuint32_from_bin d0 stream = ⟨.ok (), v, rest⟩) :
    varint32_from_bin result stream
      = ⟨.ok (), if v &&& 1 ≠ 0 then to_int32 ((not32 v >>> 1) ||| 0x80000000)
          else to_int32 (v >>> 1), rest⟩ := by
  have h0 : varuint32_from_bin 0 stream = ⟨.ok (), v, rest⟩ := h
  simp only [varint32_from_bin, h0]
  split <;> rfl

/-- C4. When `varuint32_from_bin` decodes the raw value `v` from a stream, `varint32_from_bin`
on that stream succeeds and leaves the same bytes unread; if the low bit of `v` is 1 it
returns the `int32_t` with bit pattern `((~v) >> 1) | 0x80000000`, which is negative (it
is `-(v + 1) / 2`); if the low bit is 0 it returns `v >> 1`, which is non-negative. -/
theorem varint32_sign_recovery (result : Int) (stream : Stream) (d0 v : Nat) (rest : Stream)
    (h : varuint32_from_bin d0 stream = ⟨.ok (), v, rest⟩) :
    (v &&& 1 = 1 →
      varint32_from_bin result stream
        = ⟨.ok (), to_int32 ((not32 v >>> 1) ||| 0x80000000), rest⟩ ∧
      (not32 v >>> 1) ||| 0x80000000 < 2 ^ 32 ∧
      to_int32 ((not32 v >>> 1) ||| 0x80000000) = -(((v + 1) / 2 : Nat) : Int) ∧
      to_int32 ((not32 v >>> 1) ||| 0x80000000) < 0) ∧
    (v &&& 1 = 0 →
      varint32_from_bin result stream = ⟨.ok (), ((v >>> 1 : Nat) : Int), rest⟩ ∧
      v >>> 1 < 2 ^ 31 ∧
      (0 : Int) ≤ ((v >>> 1 : Nat) : Int)) := by
  have hr : (varuint32_from_bin d0 stream).r = .ok () := by rw [h]
  have hv : v < 2 ^ 32 := by
    have := varuint32_from_bin_lt d0 stream hr
    rwa [h] at this
  have hu := varint32_from_bin_unfold result stream d0 v rest h
  have hshift : v >>> 1 = v / 2 := by rw [Nat.shiftRight_eq_div_pow]
  constructor
  · intro hlow
    have hodd : v % 2 = 1 := by rwa [Nat.and_one_is_mod] at hlow
    rw [hlow, if_pos (by decide)] at hu
    refine ⟨hu, ?_, to_int32_odd v hv hodd, ?_⟩
    · rw [odd_pattern v hv hodd]; omega
    · rw [to_int32_odd v hv hodd]; omega
  · intro hlow
    rw [hlow, if_neg (by decide), to_int32_even v hv, ← hshift] at hu
    refine ⟨hu, by omega, Int.ofNat_nonneg _⟩

/-- The examples of the specification: raw value 4 decodes to 2, raw value 5 to the negative
value with bit pattern `(~5 >> 1) | 0x80000000`, which is -3. -/
theorem varint32_sign_recovery_witness :
    varint32_from_bin 0 [0x04] = ⟨.ok (), 2, []⟩ ∧
    varint32_from_bin 0 [0x05] = ⟨.ok (), to_int32 ((not32 5 >>> 1) ||| 0x80000000), []⟩ ∧
    to_int32 ((not32 5 >>> 1) ||| 0x80000000) = -3 ∧
    to_int32 ((not32 5 >>> 1) ||| 0x80000000) < 0 :=
  ⟨((varint32_sign_recovery 0 [0x04] 0 4 [] (by decide)).2 (by decide)).1,
   ((varint32_sign_recovery 0 [0x05] 0 5 [] (by decide)).1 (by decide)).1,
   ((varint32_sign_recovery 0 [0x05] 0 5 [] (by decide)).1 (by decide)).2.2.1,
   ((varint32_sign_recovery 0 [0x05] 0 5 [] (by decide)).1 (by decide)).2.2.2⟩

/-- C5, as stated, fails: there is no stream on which `varint32_from_bin` succeeds with a
value other than the zigzag decode of the raw value. -/
theorem varint32_no_zigzag_difference :
    ¬ ∃ (result : Int) (stream : Stream),
      (varint32_from_bin result stream).r = .ok () ∧
      (varint32_from_bin result stream).dest
        ≠ zigzag32_spec (varuint32_from_bin 0 stream).dest := by
  rintro ⟨result, stream, hr, hne⟩
  apply hne
  cases hp : varuint32_from_bin 0 stream with
  | mk r v rest =>
    cases r with
    | error e => simp [varint32_from_bin, hp] at hr
    | ok u =>
      cases u
      have hv : v < 2 ^ 32 := by
        have := varuint32_from_bin_lt 0 stream (by rw [hp])
        rwa [hp] at this
      rw [varint32_from_bin_unfold result stream 0 v rest hp]
      exact sign_recovery_eq_zigzag v hv

/-- C5, amended. The sign recovery of `varint32_from_bin` is classic zigzag decoding: on
every stream from which `varuint32_from_bin` decodes a raw value `v`, `varint32_from_bin`
succeeds with `(v >> 1) XOR (0 - (v & 1))` read as a 32-bit two's-complement value, and
leaves the same bytes unread. -/
theorem varint32_is_zigzag (result : Int) (stream : Stream) (d0 v : Nat) (rest : Stream)
    (h : varuint32_from_bin d0 stream = ⟨.ok (), v, rest⟩) :
    varint32_from_bin result stream = ⟨.ok (), zigzag32_spec v, rest⟩ := by
  have hv : v < 2 ^ 32 := by
    have := varuint32_from_bin_lt d0 stream (by rw [h])
    rwa [h] at this
  rw [varint32_from_bin_unfold result stream d0 v rest h, sign_recovery_eq_zigzag v hv]

theorem varint32_is_zigzag_witness :
    varint32_from_bin 0 [0x05] = ⟨.ok (), zigzag32_spec 5, []⟩ ∧ zigzag32_spec 5 = -3 :=
  ⟨varint32_is_zigzag 0 [0x05] 0 5 [] (by decide), by decide⟩

/-! ## C6 and C7: sequences of arithmetic elements -/

theorem resize_length {α : Type} (v : List α) (n : Nat) (x : α) : (resize v n x).length = n := by
  simp only [resize, List.length_append, List.length_take, List.length_replicate]
  omega

theorem stream_read_append (bytes rest : Stream) (n : Nat) (h : bytes.length = n) :
    stream_read (bytes ++ rest) n = (.ok (), bytes, rest) := by
  subst h
  have h1 : ¬ ((bytes ++ rest).length < bytes.length) := by simp
  simp only [stream_read, h1, if_false, List.take_left, List.drop_left]

/-- C6 fails on the code for arithmetic elements: with a destination `std::vector<uint8_t>`
that holds three elements and the stream `00` (length prefix 0, nothing after it), the
prefix is decoded as 0, then the availability check asks for `v.size() * sizeof(T) = 3`
bytes, and `from_bin` fails, the destination still holding its three elements.  The
same happens on a host with a 4-byte `size_t`. -/
theorem empty_sequence_arithmetic_fails :
    varuint64_from_bin 0 [0x00] = ⟨.ok (), 0, []⟩ ∧
    from_bin_vector_arithmetic uint8 8 [1, 2, 3] [0x00]
      = ⟨.error stream_error.overrun, [1, 2, 3], []⟩ ∧
    from_bin_vector_arithmetic uint8 4 [1, 2, 3] [0x00]
      = ⟨.error stream_error.overrun, [1, 2, 3], []⟩ := by
  decide

/-- The part of C6 the code fulfils, non-arithmetic elements: a length prefix that decodes
to 0 empties the destination and nothing but the prefix is consumed. -/
theorem from_bin_vector_empty {T : Type} (dflt : T) (from_bin_T : T → Stream → Ret T)
    (v : List T) (stream : Stream) (d0 : Nat) (rest : Stream)
    (h : varuint32_from_bin d0 stream = ⟨.ok (), 0, rest⟩) :
    from_bin_vector dflt from_bin_T v stream = ⟨.ok (), [], rest⟩ := by
  have h0 : varuint32_from_bin 0 stream = ⟨.ok (), 0, rest⟩ := h
  simp [from_bin_vector, h0, resize, from_bin_elements]

/-- The part of C6 the code fulfils, arithmetic elements: a length prefix that decodes to 0
empties the destination and only the prefix is consumed, provided the stream still holds
as many bytes after the prefix as the destination held before the call. -/
theorem from_bin_vector_arithmetic_empty {T : Type} (A : arithmetic T) (v : List T)
    (p : Ret Nat) (hr : p.r = .ok ()) (hd : p.dest = 0)
    (hav : v.length * A.sizeof ≤ p.stream.length) :
    vector_arithmetic_body A v p = ⟨.ok (), [], p.stream⟩ := by
  have h1 : ¬ (p.stream.length < v.length * A.sizeof) := by omega
  simp [vector_arithmetic_body, hr, hd, check_available, h1, resize, stream_read, of_raw]

/-- C7 fails on the code: with an empty destination `std::vector<uint8_t>` and the stream
`05` (length prefix 5, no element bytes), the availability check is made for the
destination's `v.size() * sizeof(T) = 0` bytes and passes, the destination is resized to
5 elements, and only then the bulk read fails.  The same happens on a host with a 4-byte
`size_t`. -/
theorem arithmetic_vector_resized_before_failure :
    varuint64_from_bin 0 [0x05] = ⟨.ok (), 5, []⟩ ∧
    from_bin_vector_arithmetic uint8 8 [] [0x05]
      = ⟨.error stream_error.overrun, [0, 0, 0, 0, 0], []⟩ ∧
    (from_bin_vector_arithmetic uint8 8 [] [0x05]).dest.length = 5 ∧
    from_bin_vector_arithmetic uint8 4 [] [0x05]
      = ⟨.error stream_error.overrun, [0, 0, 0, 0, 0], []⟩ := by
  decide

/-! ## C8: text -/

theorem varuint32_from_bin_encode (n : Nat) (hn : n < 2 ^ 32) (dest : Nat) (rest : Stream) :
    varuint32_from_bin dest (varuint_encode n ++ rest) = ⟨.ok (), n, rest⟩ := by
  rw [varuint32_from_bin, varuint32_loop_eq, varuint_encode,
    varuint_loop_groups 32 35 (by decide) rest n n 0 0 (Nat.le_refl n) (by decide)
      (by decide) (by simpa using hn)]
  simp

/-- C8. For every byte string `s` of length below `2^32`, every pre-call content `obj` of the
destination and every trailing byte list `rest`, `from_bin` on `std::string` applied to the
`varuint32` encoding of the length, then `s`, then `rest`, succeeds, sets the destination to
exactly `s` and leaves exactly `rest` unread. -/
theorem text_round_trip (s : List Byte) (hL : s.length < 2 ^ 32) (obj : List Byte)
    (rest : Stream) :
    from_bin_string obj (varuint_encode s.length ++ s ++ rest) = ⟨.ok (), s, rest⟩ := by
  have hp := varuint32_from_bin_encode s.length hL 0 (s ++ rest)
  rw [← List.append_assoc] at hp
  simp only [from_bin_string, hp, resize_length]
  rw [stream_read_append s rest s.length rfl]

/-- The example of the specification: `[0x03, 'a', 'b', 'c']` yields "abc" and all four bytes
are consumed, whatever the destination held. -/
theorem text_round_trip_witness :
    [(97 : Byte), 98, 99].length < 2 ^ 32 ∧
    from_bin_string [120, 121] [0x03, 97, 98, 99] = ⟨.ok (), [97, 98, 99], []⟩ :=
  ⟨by decide, text_round_trip [97, 98, 99] (by decide) [120, 121] []⟩

/-! ## C9 and C10: variants -/

theorem variant_from_bin_hit {n : Nat} {T : Fin n → Type} (dflt : (k : Fin n) → T k)
    (dec : (k : Fin n) → T k → Stream → Ret (T k)) (v : variant T) (i : Nat) (hi : i < n)
    (stream : Stream) (d : Nat) :
    ∀ I, I + d = i →
      variant_from_bin dflt dec I v i stream
        = ⟨(dec ⟨i, hi⟩ (dflt ⟨i, hi⟩) stream).r,
            ⟨⟨i, hi⟩, (dec ⟨i, hi⟩ (dflt ⟨i, hi⟩) stream).dest⟩,
            (dec ⟨i, hi⟩ (dflt ⟨i, hi⟩) stream).stream⟩ := by
  induction d with
  | zero =>
    intro I hI
    have hI2 : I = i := by omega
    subst hI2
    rw [variant_from_bin, dif_pos hi, if_pos rfl]
  | succ d ih =>
    intro I hI
    have h1 : I < n := by omega
    have h2 : ¬ (i = I) := by omega
    rw [variant_from_bin, dif_pos h1, if_neg h2]
    exact ih (I + 1) (by omega)

theorem variant_from_bin_miss {n : Nat} {T : Fin n → Type} (dflt : (k : Fin n) → T k)
    (dec : (k : Fin n) → T k → Stream → Ret (T k)) (v : variant T) (i : Nat) (hi : n ≤ i)
    (stream : Stream) (d : Nat) :
    ∀ I, I + d = n →
      variant_from_bin dflt dec I v i stream
        = ⟨.error stream_error.bad_variant_index, v, stream⟩ := by
  induction d with
  | zero =>
    intro I hI
    have h1 : ¬ (I < n) := by omega
    rw [variant_from_bin, dif_neg h1]
  | succ d ih =>
    intro I hI
    have h1 : I < n := by omega
    have h2 : ¬ (i = I) := by omega
    rw [variant_from_bin, dif_pos h1, if_neg h2]
    exact ih (I + 1) (by omega)

/-- C9. For a variant with `n` alternatives and a stream whose `varuint32` tag decodes to
`i < n`, `from_bin` makes alternative `i` the active one, its value being what the decoder of
`T_i` leaves in a value-initialised `T_i` when run on the bytes after the tag, and returns
that decoder's result and stream position. -/
theorem variant_dispatch {n : Nat} {T : Fin n → Type} (dflt : (k : Fin n) → T k)
    (dec : (k : Fin n) → T k → Stream → Ret (T k)) (obj : variant T) (stream : Stream)
    (d0 i : Nat) (rest : Stream)
    (htag : varuint32_from_bin d0 stream = ⟨.ok (), i, rest⟩) (hi : i < n) :
    from_bin_variant dflt dec obj stream
      = ⟨(dec ⟨i, hi⟩ (dflt ⟨i, hi⟩) rest).r,
          ⟨⟨i, hi⟩, (dec ⟨i, hi⟩ (dflt ⟨i, hi⟩) rest).dest⟩,
          (dec ⟨i, hi⟩ (dflt ⟨i, hi⟩) rest).stream⟩ := by
  have h0 : varuint32_from_bin 0 stream = ⟨.ok (), i, rest⟩ := htag
  simp only [from_bin_variant, h0]
  exact variant_from_bin_hit dflt dec obj i hi rest i 0 (by omega)

/-- The example of the specification: with 3 alternatives, tag 2 selects alternative 2 (here a
`std::vector<uint8_t>`, decoded from `02 08 09`), whatever alternative was active. -/
theorem variant_dispatch_witness :
    from_bin_variant example_dflt example_dec ⟨0, (5 : Byte)⟩ [0x02, 0x02, 0x08, 0x09, 0x0a]
      = ⟨.ok (), ⟨2, ([0x08, 0x09] : List Byte)⟩, [0x0a]⟩ :=
  variant_dispatch example_dflt example_dec ⟨0, (5 : Byte)⟩ [0x02, 0x02, 0x08, 0x09, 0x0a]
    0 2 [0x02, 0x08, 0x09, 0x0a] (by decide) (by decide)

/-- C10. For a variant with `n` alternatives and a stream whose `varuint32` tag decodes to
`i ≥ n`, `from_bin` fails with `bad_variant_index`, the destination holds the alternative and
value it held before the call, and the stream stands right after the tag. -/
theorem bad_variant_index_rejected {n : Nat} {T : Fin n → Type} (dflt : (k : Fin n) → T k)
    (dec : (k : Fin n) → T k → Stream → Ret (T k)) (obj : variant T) (stream : Stream)
    (d0 i : Nat) (rest : Stream)
    (htag : varuint32_from_bin d0 stream = ⟨.ok (), i, rest⟩) (hi : n ≤ i) :
    from_bin_variant dflt dec obj stream
      = ⟨.error stream_error.bad_variant_index, obj, rest⟩ := by
  have h0 : varuint32_from_bin 0 stream = ⟨.ok (), i, rest⟩ := htag
  simp only [from_bin_variant, h0]
  exact variant_from_bin_miss dflt dec obj i hi rest n 0 (by omega)

/-- The example of the specification: with 3 alternatives, tag 3 fails with
`bad_variant_index` and the destination keeps its alternative 0 holding 5. -/
theorem bad_variant_index_rejected_witness :
    from_bin_variant example_dflt example_dec ⟨0, (5 : Byte)⟩ [0x03, 0x02, 0x08, 0x09]
      = ⟨.error stream_error.bad_variant_index, ⟨0, (5 : Byte)⟩, [0x02, 0x08, 0x09]⟩ :=
  bad_variant_index_rejected example_dflt example_dec ⟨0, (5 : Byte)⟩ [0x03, 0x02, 0x08, 0x09]
    0 3 [0x02, 0x08, 0x09] (by decide) (by decide)

/-! ## C16: round trip of `varuint64` -/

theorem varuint_groups_length (fuel : Nat) :
    ∀ (n k : Nat), n < 128 ^ (k + 1) → (varuint_groups fuel n).length ≤ k + 1 := by
  induction fuel with
  | zero =>
    intro n k _
    simp [varuint_groups]
  | succ fuel ih =>
    intro n k hn
    simp only [varuint_groups]
    split
    · simp
    · cases k with
      | zero => omega
      | succ k =>
        have hq : n / 128 < 128 ^ (k + 1) := by
          apply Nat.div_lt_of_lt_mul
          rw [Nat.pow_succ, Nat.mul_comm] at hn
          exact hn
        have := ih (n / 128) k hq
        simp only [List.length_cons]
        omega

/-- C16. For every `n < 2^64` and every trailing byte list `rest`, the minimal encoding of `n`
has at most 10 bytes and `varuint64_from_bin` run on it followed by `rest` succeeds, yields
exactly `n` and leaves exactly `rest` unread, whatever the destination held before. -/
theorem varuint64_round_trip (n : Nat) (hn : n < 2 ^ 64) (dest : Nat) (rest : Stream) :
    (varuint_encode n).length ≤ 10 ∧
    varuint64_from_bin dest (varuint_encode n ++ rest) = ⟨.ok (), n, rest⟩ := by
  constructor
  · have h70 : n < 128 ^ (9 + 1) := Nat.lt_of_lt_of_le hn (by decide)
    exact varuint_groups_length n n 9 h70
  · have h := varuint_loop_groups 64 70 (by decide) rest n n 0 0 (Nat.le_refl n) (by decide)
      (by decide) (by simpa using hn)
    simpa [varuint64_from_bin, varuint64_loop_eq, varuint_encode] using h

theorem varuint64_round_trip_witness :
    18446744073709551615 < 2 ^ 64 ∧
    varuint_encode 18446744073709551615
      = [0xff, 0xff, 0xff, 0xff, 0xff, 0xff, 0xff, 0xff, 0xff, 0x01] ∧
    (varuint_encode 18446744073709551615).length ≤ 10 ∧
    varuint64_from_bin 7 (varuint_encode 18446744073709551615 ++ [0x09])
      = ⟨.ok (), 18446744073709551615, [0x09]⟩ :=
  ⟨by decide, by decide, (varuint64_round_trip 18446744073709551615 (by decide) 7 [0x09]).1,
    (varuint64_round_trip 18446744073709551615 (by decide) 7 [0x09]).2⟩

/-! ## C20: how many bytes the loops take -/

/-- What either loop has taken from the stream, for every outcome: a prefix of `k` bytes;
on success the last of them ends the encoding and the others carry the continuation bit;
on `invalid_varuint_encoding` all of them carry it and the limit is reached; on a stream
error the stream is exhausted. -/
theorem varuint_loop_consumed (w lim : Nat) (s : Stream) :
    ∀ (dest shift : Nat), ∃ k, k ≤ s.length ∧
      (varuint_loop w lim dest shift s).stream = s.drop k ∧
      (k = 0 ∨ shift + 7 * k < lim + 7) ∧
      ((varuint_loop w lim dest shift s).r = .ok () →
        ∃ j, k = j + 1 ∧ (∀ b ∈ s.take j, (b : Byte).val &&& 0x80 ≠ 0) ∧
          ∃ b, s[j]? = some b ∧ (b : Byte).val &&& 0x80 = 0) ∧
      ((varuint_loop w lim dest shift s).r = .error stream_error.invalid_varuint_encoding →
        lim ≤ shift + 7 * k ∧ ∀ b ∈ s.take k, (b : Byte).val &&& 0x80 ≠ 0) ∧
      ((varuint_loop w lim dest shift s).r = .error stream_error.overrun →
        k = s.length) ∧
      (varuint_loop w lim dest shift s).r ≠ .error stream_error.bad_variant_index := by
  induction s with
  | nil =>
    intro dest shift
    refine ⟨0, Nat.le_refl 0, ?_, Or.inl rfl, ?_, ?_, ?_, ?_⟩
    · simp only [varuint_loop]; split <;> rfl
    · intro h; simp only [varuint_loop] at h; split at h <;> simp at h
    · intro h
      simp only [varuint_loop] at h
      split at h
      · exact ⟨by omega, by simp⟩
      · simp at h
    · intro _; rfl
    · simp only [varuint_loop]; split <;> simp
  | cons b rest ih =>
    intro dest shift
    by_cases hl : lim ≤ shift
    · rw [varuint_loop_limit w lim dest shift _ hl]
      refine ⟨0, Nat.zero_le _, rfl, Or.inl rfl, ?_, ?_, ?_, ?_⟩
      · intro h; simp at h
      · intro _; exact ⟨by omega, by simp⟩
      · intro h; simp at h
      · simp
    · have hl2 : shift < lim := by omega
      by_cases hb : b.val < 128
      · rw [varuint_loop_last w lim dest shift b rest hl2 hb]
        refine ⟨1, by simp, rfl, Or.inr (by omega), ?_, ?_, ?_, ?_⟩
        · intro _
          refine ⟨0, rfl, by simp, b, by simp, ?_⟩
          have := (byte_and_80 b).not.mpr (by omega)
          simpa using this
        · intro h; simp at h
        · intro h; simp at h
        · simp
      · have hb2 : 128 ≤ b.val := by omega
        have hbit : b.val &&& 0x80 ≠ 0 := (byte_and_80 b).mpr hb2
        rw [varuint_loop_more w lim dest shift b rest hl2 hb2]
        obtain ⟨k, h1, h2, h3, h4, h5, h6, h7⟩ :=
          ih (dest ||| ((b.val % 128 * 2 ^ shift) % 2 ^ w)) (shift + 7)
        refine ⟨k + 1, by simp; omega, by simpa using h2, Or.inr (by omega), ?_, ?_, ?_, h7⟩
        · intro hr
          obtain ⟨j, hj, hall, c, hc1, hc2⟩ := h4 hr
          refine ⟨j + 1, by omega, ?_, c, by simpa using hc1, hc2⟩
          intro x hx
          simp only [List.take_succ_cons, List.mem_cons] at hx
          rcases hx with hx | hx
          · rw [hx]; exact hbit
          · exact hall x hx
        · intro hr
          obtain ⟨hlim, hall⟩ := h5 hr
          refine ⟨by omega, ?_⟩
          intro x hx
          simp only [List.take_succ_cons, List.mem_cons] at hx
          rcases hx with hx | hx
          · rw [hx]; exact hbit
          · exact hall x hx
        · intro hr
          simp only [List.length_cons]
          rw [h6 hr]

/-- C20. On every stream `varuint32_from_bin` returns, having taken a prefix of at most 5 bytes
(`varuint64_from_bin`: at most 10): the unread stream is the input without its first `k`
bytes, `k` being the number of bytes consumed.  On success `1 ≤ k`, the first `k - 1` bytes
have the high bit set and the `k`-th has it clear; on `invalid_varuint_encoding` exactly
5 (resp. 10) bytes are consumed. -/
theorem varuint_bounded_consumption :
    (∀ (dest : Nat) (s : Stream),
      s.length - (varuint32_from_bin dest s).stream.length ≤ 5 ∧
      (varuint32_from_bin dest s).stream
        = s.drop (s.length - (varuint32_from_bin dest s).stream.length) ∧
      ((varuint32_from_bin dest s).r = .ok () →
        1 ≤ s.length - (varuint32_from_bin dest s).stream.length ∧
        (∀ b ∈ s.take (s.length - (varuint32_from_bin dest s).stream.length - 1),
          (b : Byte).val &&& 0x80 ≠ 0) ∧
        ∃ b, s[s.length - (varuint32_from_bin dest s).stream.length - 1]? = some b ∧
          (b : Byte).val &&& 0x80 = 0) ∧
      ((varuint32_from_bin dest s).r = .error stream_error.invalid_varuint_encoding →
        s.length - (varuint32_from_bin dest s).stream.length = 5)) ∧
    (∀ (dest : Nat) (s : Stream),
      s.length - (varuint64_from_bin dest s).stream.length ≤ 10 ∧
      (varuint64_from_bin dest s).stream
        = s.drop (s.length - (varuint64_from_bin dest s).stream.length) ∧
      ((varuint64_from_bin dest s).r = .ok () →
        1 ≤ s.length - (varuint64_from_bin dest s).stream.length ∧
        (∀ b ∈ s.take (s.length - (varuint64_from_bin dest s).stream.length - 1),
          (b : Byte).val &&& 0x80 ≠ 0) ∧
        ∃ b, s[s.length - (varuint64_from_bin dest s).stream.length - 1]? = some b ∧
          (b : Byte).val &&& 0x80 = 0) ∧
      ((varuint64_from_bin dest s).r = .error stream_error.invalid_varuint_encoding →
        s.length - (varuint64_from_bin dest s).stream.length = 10)) := by
  constructor
  · intro dest s
    simp only [varuint32_from_bin, varuint32_loop_eq]
    obtain ⟨k, h1, h2, h3, h4, h5, _, _⟩ := varuint_loop_consumed 32 35 s 0 0
    have hk : s.length - (varuint_loop 32 35 0 0 s).stream.length = k := by
      rw [h2, List.length_drop]; omega
    rw [hk]
    refine ⟨by omega, h2, ?_, ?_⟩
    · intro hr
      obtain ⟨j, hj, hall, hlast⟩ := h4 hr
      subst hj
      exact ⟨by omega, hall, hlast⟩
    · intro hr
      have := (h5 hr).1
      omega
  · intro dest s
    simp only [varuint64_from_bin, varuint64_loop_eq]
    obtain ⟨k, h1, h2, h3, h4, h5, _, _⟩ := varuint_loop_consumed 64 70 s 0 0
    have hk : s.length - (varuint_loop 64 70 0 0 s).stream.length = k := by
      rw [h2, List.length_drop]; omega
    rw [hk]
    refine ⟨by omega, h2, ?_, ?_⟩
    · intro hr
      obtain ⟨j, hj, hall, hlast⟩ := h4 hr
      subst hj
      exact ⟨by omega, hall, hlast⟩
    · intro hr
      have := (h5 hr).1
      omega

theorem varuint_bounded_consumption_witness :
    (1 ≤ [(0xac : Byte), 0x02, 0x09].length
        - (varuint32_from_bin 0 [0xac, 0x02, 0x09]).stream.length ∧
      (∀ b ∈ [(0xac : Byte), 0x02, 0x09].take
          ([(0xac : Byte), 0x02, 0x09].length
            - (varuint32_from_bin 0 [0xac, 0x02, 0x09]).stream.length - 1),
        (b : Byte).val &&& 0x80 ≠ 0) ∧
      ∃ b, [(0xac : Byte), 0x02, 0x09][[(0xac : Byte), 0x02, 0x09].length
          - (varuint32_from_bin 0 [0xac, 0x02, 0x09]).stream.length - 1]? = some b ∧
        (b : Byte).val &&& 0x80 = 0) ∧
    [(0xff : Byte), 0xff, 0xff, 0xff, 0xff, 0x01].length
      - (varuint32_from_bin 0 [0xff, 0xff, 0xff, 0xff, 0xff, 0x01]).stream.length = 5 :=
  ⟨(varuint_bounded_consumption.1 0 [0xac, 0x02, 0x09]).2.2.1 (by decide),
   (varuint_bounded_consumption.1 0 [0xff, 0xff, 0xff, 0xff, 0xff, 0x01]).2.2.2 (by decide)⟩

/-! ## C18: non-minimal encodings -/

set_option maxRecDepth 100000 in
theorem byte_or_80 (b : Byte) (h : b.val < 128) : (b ||| 0x80).val = b.val + 128 := by
  revert b
  decide

theorem varuint_groups_ne_nil (fuel n : Nat) : varuint_groups fuel n ≠ [] := by
  cases fuel with
  | zero => simp [varuint_groups]
  | succ fuel =>
    simp only [varuint_groups]
    split <;> simp

theorem mark_last_cons (b : Byte) (l : List Byte) (h : l ≠ []) :
    mark_last (b :: l) = b :: mark_last l := by
  cases l with
  | nil => exact absurd rfl h
  | cons c l => rfl

theorem mark_last_length (l : List Byte) : (mark_last l).length = l.length := by
  induction l with
  | nil => rfl
  | cons b l ih =>
    cases l with
    | nil => rfl
    | cons c l =>
      rw [mark_last_cons b (c :: l) (by simp), List.length_cons, ih]
      rfl

/-- A single group `c < 128` with the continuation bit set, then the byte `0x00`. -/
theorem varuint_loop_padded_single (w lim : Nat) (rest : Stream) (c dest shift : Nat)
    (hc : c < 128) (hs : shift + 7 < lim) (hd : dest < 2 ^ shift)
    (hfit : dest + c * 2 ^ shift < 2 ^ w) :
    varuint_loop w lim dest shift
        (mark_last [(⟨c % 128, by omega⟩ : Byte)] ++ (0x00 : Byte) :: rest)
      = ⟨.ok (), dest + c * 2 ^ shift, rest⟩ := by
  have hd2 : dest < 2 ^ w := by omega
  have hcm : c % 128 = c := Nat.mod_eq_of_lt hc
  have hv : ((⟨c % 128, by omega⟩ : Byte) ||| 0x80).val = c + 128 := by
    rw [byte_or_80 _ (by simp; omega)]
    simp [hcm]
  have hmod : (c + 128) % 128 = c := by omega
  simp only [mark_last, List.singleton_append]
  rw [varuint_loop_more w lim dest shift _ _ (by omega) (by rw [hv]; omega), hv, hmod,
    acc_step w shift dest c hd hd2, Nat.mod_eq_of_lt hfit,
    varuint_loop_last w lim _ (shift + 7) 0 rest hs (by decide)]
  have h0 : ((0 : Byte).val % 128 * 2 ^ (shift + 7)) % 2 ^ w = 0 := by simp
  rw [h0, Nat.or_zero]

/-- Either loop, run on the groups of `n` with the continuation bit set on the last one
and a byte `0x00` after them, stops after that byte with `n` added, when a further group
still fits the accumulator. -/
theorem varuint_loop_padded (w lim : Nat) (hw : w < lim) (rest : Stream) (fuel : Nat) :
    ∀ (n dest shift e : Nat), n ≤ fuel → n < 2 ^ e → e + shift + 7 ≤ w → dest < 2 ^ shift →
      varuint_loop w lim dest shift
          (mark_last (varuint_groups fuel n) ++ (0x00 : Byte) :: rest)
        = ⟨.ok (), dest + n * 2 ^ shift, rest⟩ := by
  have hfit : ∀ (n dest shift e : Nat), n < 2 ^ e → e + shift + 7 ≤ w → dest < 2 ^ shift →
      dest + n * 2 ^ shift < 2 ^ w := by
    intro n dest shift e hn he hd
    have h1 : (n + 1) * 2 ^ shift ≤ 2 ^ e * 2 ^ shift := Nat.mul_le_mul_right _ hn
    have h2 : 2 ^ e * 2 ^ shift ≤ 2 ^ w := by
      rw [← Nat.pow_add]
      exact Nat.pow_le_pow_right (by decide) (by omega)
    rw [Nat.add_mul, Nat.one_mul] at h1
    omega
  induction fuel with
  | zero =>
    intro n dest shift e hn hne he hd
    have hn0 : n = 0 := by omega
    subst hn0
    simp only [varuint_groups]
    exact varuint_loop_padded_single w lim rest 0 dest shift (by decide) (by omega) hd
      (hfit 0 dest shift e hne he hd)
  | succ fuel ih =>
    intro n dest shift e hn hne he hd
    by_cases h128 : n < 128
    · simp only [varuint_groups, h128, if_true]
      exact varuint_loop_padded_single w lim rest n dest shift h128 (by omega) hd
        (hfit n dest shift e hne he hd)
    · simp only [varuint_groups, h128, if_false]
      rw [mark_last_cons _ _ (varuint_groups_ne_nil fuel (n / 128)), List.cons_append]
      have he7 : 7 < e := by
        by_contra hcon
        have : 2 ^ e ≤ 2 ^ 7 := Nat.pow_le_pow_right (by decide) (by omega)
        omega
      have hq : n / 128 < 2 ^ (e - 7) := by
        apply Nat.div_lt_of_lt_mul
        have : 2 ^ e = 128 * 2 ^ (e - 7) := by
          rw [show (128 : Nat) = 2 ^ 7 by decide, ← Nat.pow_add]
          congr 1
          omega
        omega
      have hc : n % 128 < 128 := Nat.mod_lt _ (by decide)
      have hval : (n % 128 + 128) % 128 = n % 128 := by omega
      have hd2 : dest < 2 ^ w := by
        have := hfit n dest shift e hne he hd
        omega
      have hpow : 2 ^ (shift + 7) = 128 * 2 ^ shift := by rw [Nat.pow_add]; ring
      have hn2 : n * 2 ^ shift
          = n % 128 * 2 ^ shift + n / 128 * 2 ^ (shift + 7) := by
        conv_lhs => rw [(Nat.div_add_mod n 128).symm]
        rw [hpow]
        ring
      have hpart : dest + n % 128 * 2 ^ shift < 2 ^ w := by
        have := hfit n dest shift e hne he hd
        omega
      rw [varuint_loop_more w lim dest shift _ _ (by omega) (Nat.le_add_left 128 (n % 128)),
        acc_step w shift dest _ hd hd2]
      simp only [hval]
      rw [Nat.mod_eq_of_lt hpart,
        ih (n / 128) _ (shift + 7) (e - 7) (by omega) hq (by omega)
          (group_lt dest shift _ hd hc)]
      rw [hn2, Nat.add_assoc]

/-- C18. `varuint32_from_bin` is not injective on byte sequences: `[0x00]` and `[0x80, 0x00]` are
distinct, both are accepted and consumed entirely, and both yield 0.  More generally, for
every `n < 2^21` the minimal encoding of `n` with the high bit of its last byte set and a
byte `0x00` appended differs from the minimal encoding and also decodes to `n`. -/
theorem non_minimal_encoding_accepted :
    ([0x00] : List Byte) ≠ [0x80, 0x00] ∧
    varuint32_from_bin 0 [0x00] = ⟨.ok (), 0, []⟩ ∧
    varuint32_from_bin 0 [0x80, 0x00] = ⟨.ok (), 0, []⟩ ∧
    ∀ (n : Nat), n < 2 ^ 21 → ∀ (dest : Nat) (rest : Stream),
      varuint_encode_padded n ≠ varuint_encode n ∧
      varuint32_from_bin dest (varuint_encode n ++ rest) = ⟨.ok (), n, rest⟩ ∧
      varuint32_from_bin dest (varuint_encode_padded n ++ rest) = ⟨.ok (), n, rest⟩ := by
  refine ⟨by decide, by decide, by decide, ?_⟩
  intro n hn dest rest
  refine ⟨?_, ?_, ?_⟩
  · intro heq
    have := congrArg List.length heq
    simp [varuint_encode_padded, mark_last_length] at this
  · have h := varuint_loop_groups 32 35 (by decide) rest n n 0 0 (Nat.le_refl n) (by decide)
      (by decide) (by simp; omega)
    simpa [varuint32_from_bin, varuint32_loop_eq, varuint_encode] using h
  · have h := varuint_loop_padded 32 35 (by decide) rest n n 0 0 21 (Nat.le_refl n) hn
      (by decide) (by decide)
    simpa [varuint32_from_bin, varuint32_loop_eq, varuint_encode_padded, varuint_encode]
      using h

theorem non_minimal_encoding_accepted_witness :
    varuint_encode 300 = [0xac, 0x02] ∧ varuint_encode_padded 300 = [0xac, 0x82, 0x00] ∧
    varuint32_from_bin 0 (varuint_encode_padded 300 ++ [0x09]) = ⟨.ok (), 300, [0x09]⟩ :=
  ⟨by decide, by decide,
    (non_minimal_encoding_accepted.2.2.2 300 (by decide) 0 [0x09]).2.2⟩

/-! ## C19: the sign recovery is a bijection -/

/-- The value recovered from the raw value `v`, as a number. -/
theorem sign_recovery_closed (v : Nat) (hv : v < 2 ^ 32) :
    (if v &&& 1 ≠ 0 then to_int32 ((not32 v >>> 1) ||| 0x80000000) else to_int32 (v >>> 1))
      = if v % 2 = 1 then -(((v + 1) / 2 : Nat) : Int) else ((v / 2 : Nat) : Int) := by
  rw [Nat.and_one_is_mod]
  rcases Nat.mod_two_eq_zero_or_one v with h | h
  · rw [h, if_neg (by decide), if_neg (by decide), to_int32_even v hv]
  · rw [h, if_pos (by decide), if_pos rfl, to_int32_odd v hv h]

theorem varint32_from_bin_closed (result : Int) (stream : Stream) (d0 v : Nat) (rest : Stream)
    (h : varuint32_from_bin d0 stream = ⟨.ok (), v, rest⟩) :
    varint32_from_bin result stream
      = ⟨.ok (), if v % 2 = 1 then -(((v + 1) / 2 : Nat) : Int) else ((v / 2 : Nat) : Int),
          rest⟩ := by
  have hv : v < 2 ^ 32 := by
    have := varuint32_from_bin_lt d0 stream (by rw [h])
    rwa [h] at this
  rw [varint32_from_bin_unfold result stream d0 v rest h, sign_recovery_closed v hv]

/-- C19. The sign recovery of `varint32_from_bin` is a bijection from the `uint32_t` raw values
onto the `int32_t` values: two streams whose raw values differ are decoded to different
values, every value recovered lies in `[-2^31, 2^31)`, and every integer in that range is
the value recovered from some raw value `v < 2^32`. -/
theorem varint32_bijective :
    (∀ (r1 r2 : Int) (s1 s2 : Stream) (d1 d2 v1 v2 : Nat) (t1 t2 : Stream),
      varuint32_from_bin d1 s1 = ⟨.ok (), v1, t1⟩ →
      varuint32_from_bin d2 s2 = ⟨.ok (), v2, t2⟩ → v1 ≠ v2 →
      (varint32_from_bin r1 s1).dest ≠ (varint32_from_bin r2 s2).dest) ∧
    (∀ (r : Int) (s : Stream), (varint32_from_bin r s).r = .ok () →
      -2 ^ 31 ≤ (varint32_from_bin r s).dest ∧ (varint32_from_bin r s).dest < 2 ^ 31) ∧
    (∀ (x : Int), -2 ^ 31 ≤ x → x < 2 ^ 31 →
      ∃ v, v < 2 ^ 32 ∧ ∀ (r : Int) (rest : Stream),
        varint32_from_bin r (varuint_encode v ++ rest) = ⟨.ok (), x, rest⟩) := by
  refine ⟨?_, ?_, ?_⟩
  · intro r1 r2 s1 s2 d1 d2 v1 v2 t1 t2 h1 h2 hne
    have hv1 : v1 < 2 ^ 32 := by
      have := varuint32_from_bin_lt d1 s1 (by rw [h1])
      rwa [h1] at this
    have hv2 : v2 < 2 ^ 32 := by
      have := varuint32_from_bin_lt d2 s2 (by rw [h2])
      rwa [h2] at this
    rw [varint32_from_bin_closed r1 s1 d1 v1 t1 h1, varint32_from_bin_closed r2 s2 d2 v2 t2 h2]
    simp only
    intro heq
    apply hne
    split at heq <;> split at heq <;> omega
  · intro r s hr
    cases hp : varuint32_from_bin 0 s with
    | mk pr v rest =>
      cases pr with
      | error e => simp [varint32_from_bin, hp] at hr
      | ok u =>
        cases u
        have hv : v < 2 ^ 32 := by
          have := varuint32_from_bin_lt 0 s (by rw [hp])
          rwa [hp] at this
        rw [varint32_from_bin_closed r s 0 v rest hp]
        simp only
        split <;> omega
  · intro x hlo hhi
    by_cases hx : 0 ≤ x
    · refine ⟨2 * x.toNat, by omega, ?_⟩
      intro r rest
      rw [varint32_from_bin_closed r _ 0 (2 * x.toNat) rest
        (varuint32_from_bin_encode _ (by omega) 0 rest)]
      have h1 : ¬ ((2 * x.toNat) % 2 = 1) := by omega
      rw [if_neg h1]
      congr 1
      omega
    · refine ⟨2 * (-x).toNat - 1, by omega, ?_⟩
      intro r rest
      rw [varint32_from_bin_closed r _ 0 (2 * (-x).toNat - 1) rest
        (varuint32_from_bin_encode _ (by omega) 0 rest)]
      have h1 : (2 * (-x).toNat - 1) % 2 = 1 := by omega
      rw [if_pos h1]
      congr 1
      omega

theorem varint32_bijective_witness :
    (varint32_from_bin 0 [0x04]).dest ≠ (varint32_from_bin 0 [0x05]).dest ∧
    ∃ v, v < 2 ^ 32 ∧ ∀ (r : Int) (rest : Stream),
      varint32_from_bin r (varuint_encode v ++ rest) = ⟨.ok (), -2147483648, rest⟩ :=
  ⟨varint32_bijective.1 0 0 [0x04] [0x05] 0 0 4 5 [] [] (by decide) (by decide)
      (by decide),
    varint32_bijective.2.2 (-2147483648) (by decide) (by decide)⟩

/-! ## C15: pairs -/

/-- C15. `from_bin` on a pair decodes `first` from the stream and then `second` from where the
decoder of `first` stopped, returning the result of the second decoder; if the decoder of
`first` fails with `e`, the call returns `e`, `second` keeps its pre-call value and the
stream stays where that decoder left it. -/
theorem pair_sequential {A B : Type} (from_bin_A : A → Stream → Ret A)
    (from_bin_B : B → Stream → Ret B) (obj : A × B) (stream : Stream) :
    ((from_bin_A obj.1 stream).r = .ok () →
      from_bin_pair from_bin_A from_bin_B obj stream
        = ⟨(from_bin_B obj.2 (from_bin_A obj.1 stream).stream).r,
            ((from_bin_A obj.1 stream).dest,
              (from_bin_B obj.2 (from_bin_A obj.1 stream).stream).dest),
            (from_bin_B obj.2 (from_bin_A obj.1 stream).stream).stream⟩) ∧
    (∀ e, (from_bin_A obj.1 stream).r = .error e →
      (from_bin_pair from_bin_A from_bin_B obj stream).r = .error e ∧
      (from_bin_pair from_bin_A from_bin_B obj stream).dest.2 = obj.2 ∧
      (from_bin_pair from_bin_A from_bin_B obj stream).dest.1 = (from_bin_A obj.1 stream).dest ∧
      (from_bin_pair from_bin_A from_bin_B obj stream).stream
        = (from_bin_A obj.1 stream).stream) := by
  constructor
  · intro h
    simp only [from_bin_pair, h]
  · intro e h
    simp only [from_bin_pair, h, and_self]

/-- A pair `(uint8_t, std::string)`: both components decoded in sequence; and a failure of the
first component on an empty stream, which leaves the second untouched. -/
theorem pair_sequential_witness :
    from_bin_pair (from_bin_arithmetic uint8) from_bin_string (0, [120]) [7, 1, 65, 9]
      = ⟨.ok (), (7, [65]), [9]⟩ ∧
    ((from_bin_pair (from_bin_arithmetic uint8) from_bin_string (0, [120]) []).r
        = .error stream_error.overrun ∧
      (from_bin_pair (from_bin_arithmetic uint8) from_bin_string (0, [120]) []).dest.2 = [120] ∧
      (from_bin_pair (from_bin_arithmetic uint8) from_bin_string (0, [120]) []).dest.1
        = (from_bin_arithmetic uint8 0 []).dest ∧
      (from_bin_pair (from_bin_arithmetic uint8) from_bin_string (0, [120]) []).stream
        = (from_bin_arithmetic uint8 0 []).stream) :=
  ⟨(pair_sequential (from_bin_arithmetic uint8) from_bin_string (0, [120]) [7, 1, 65, 9]).1
      (by decide),
    (pair_sequential (from_bin_arithmetic uint8) from_bin_string (0, [120]) []).2
      stream_error.overrun (by decide)⟩

/-! ## C13: optionals -/

theorem from_bin_arithmetic_append {T : Type} (A : arithmetic T) (obj : T)
    (bytes rest : Stream) (h : bytes.length = A.sizeof) :
    from_bin_arithmetic A obj (bytes ++ rest) = ⟨.ok (), A.of_bytes bytes, rest⟩ := by
  simp only [from_bin_arithmetic, stream_read_append bytes rest A.sizeof h]

theorem map_range_succ {α : Type} (val : Nat → α) (n : Nat) :
    (List.range (n + 1)).map val = val 0 :: (List.range n).map (fun j => val (j + 1)) := by
  rw [List.range_succ_eq_map, List.map_cons, List.map_map]
  rfl

/-- The element loop when every element decodes: the elements are decoded in order, each
from where the one before stopped. -/
theorem from_bin_elements_ok {T : Type} (dec : T → Stream → Ret T) (xs : List T) :
    ∀ (pos : Nat → Stream) (val : Nat → T),
      (∀ j x, xs[j]? = some x → dec x (pos j) = ⟨.ok (), val j, pos (j + 1)⟩) →
      from_bin_elements dec xs (pos 0)
        = ⟨.ok (), (List.range xs.length).map val, pos xs.length⟩ := by
  induction xs with
  | nil =>
    intro pos val _
    rfl
  | cons x xs ih =>
    intro pos val h
    have h0 := h 0 x (by simp)
    have hrest := ih (fun j => pos (j + 1)) (fun j => val (j + 1))
      (fun j y hy => h (j + 1) y (by simpa using hy))
    simp only [from_bin_elements, h0, hrest, List.length_cons, map_range_succ]

/-- The element loop when element `j` is the first that fails: the elements before it are
decoded, element `j` is what its decoder left, the elements after it are untouched and the
stream stays where the decoder of element `j` left it. -/
theorem from_bin_elements_fail {T : Type} (dec : T → Stream → Ret T) (xs : List T) :
    ∀ (pos : Nat → Stream) (val : Nat → T) (j : Nat) (x : T) (e : stream_error),
      (∀ i y, i < j → xs[i]? = some y → dec y (pos i) = ⟨.ok (), val i, pos (i + 1)⟩) →
      xs[j]? = some x → (dec x (pos j)).r = .error e →
      from_bin_elements dec xs (pos 0)
        = ⟨.error e, (List.range j).map val ++ (dec x (pos j)).dest :: xs.drop (j + 1),
            (dec x (pos j)).stream⟩ := by
  induction xs with
  | nil =>
    intro pos val j x e _ hx _
    simp at hx
  | cons y ys ih =>
    intro pos val j x e h hx hfail
    cases j with
    | zero =>
      have hxy : y = x := by simpa using hx
      subst hxy
      simp [from_bin_elements, hfail]
    | succ j =>
      have h0 := h 0 y (by omega) (by simp)
      have hrest := ih (fun i => pos (i + 1)) (fun i => val (i + 1)) j x e
        (fun i z hi hz => h (i + 1) z (by omega) (by simpa using hz))
        (by simpa using hx) hfail
      simp only [from_bin_elements, h0, hrest, map_range_succ, List.drop_succ_cons,
        List.cons_append]

/-- C14. For non-arithmetic `T`, once the `varuint32` length `L` is decoded, `from_bin` resizes
the destination to `L` elements and decodes them in index order, element `j` from where
element `j - 1` stopped.  If all succeed the destination is the `L` decoded elements in
order and the stream stands after the last one.  If element `j` is the first to fail, with
`e`, the call returns `e`, the elements before `j` are decoded, the elements after `j` are as
`resize` left them and the stream stays where the decoder of element `j` left it. -/
theorem vector_decode_in_order {T : Type} (dflt : T) (dec : T → Stream → Ret T)
    (v : List T) (stream : Stream) (d0 L : Nat) (pos : Nat → Stream) (val : Nat → T)
    (hp : varuint32_from_bin d0 stream = ⟨.ok (), L, pos 0⟩) :
    ((∀ j x, (resize v L dflt)[j]? = some x →
        dec x (pos j) = ⟨.ok (), val j, pos (j + 1)⟩) →
      from_bin_vector dflt dec v stream = ⟨.ok (), (List.range L).map val, pos L⟩) ∧
    (∀ j x e,
      (∀ i y, i < j → (resize v L dflt)[i]? = some y →
        dec y (pos i) = ⟨.ok (), val i, pos (i + 1)⟩) →
      (resize v L dflt)[j]? = some x → (dec x (pos j)).r = .error e →
      from_bin_vector dflt dec v stream
        = ⟨.error e,
            (List.range j).map val ++ (dec x (pos j)).dest :: (resize v L dflt).drop (j + 1),
            (dec x (pos j)).stream⟩) := by
  have h0 : varuint32_from_bin 0 stream = ⟨.ok (), L, pos 0⟩ := hp
  constructor
  · intro h
    have := from_bin_elements_ok dec (resize v L dflt) pos val h
    rw [resize_length] at this
    simp only [from_bin_vector, h0, this]
  · intro j x e h hx hfail
    have := from_bin_elements_fail dec (resize v L dflt) pos val j x e h hx hfail
    simp only [from_bin_vector, h0, this]

/-- A `std::vector<std::string>` holding one element, decoded from `02 01 'A' 02 'B' 'C' 09`,
and from `02 01 'A' 05 'B'`, where the second element fails. -/
theorem vector_decode_in_order_witness :
    from_bin_vector [] from_bin_string [[120]] [0x02, 0x01, 65, 0x02, 66, 67, 0x09]
      = ⟨.ok (), [[65], [66, 67]], [0x09]⟩ ∧
    from_bin_vector [] from_bin_string [[120]] [0x02, 0x01, 65, 0x05, 66]
      = ⟨.error stream_error.overrun, [[65], [0, 0, 0, 0, 0]], [66]⟩ :=
  ⟨(vector_decode_in_order [] from_bin_string [[120]] [0x02, 0x01, 65, 0x02, 66, 67, 0x09]
      0 2 example_positions example_elements (by decide)).1
      (by
        intro j x hx
        rcases j with _ | _ | j
        · have hx2 : x = [120] := by simpa [resize] using hx.symm
          subst hx2
          decide
        · have hx2 : x = [] := by simpa [resize] using hx.symm
          subst hx2
          decide
        · simp [resize] at hx),
    (vector_decode_in_order [] from_bin_string [[120]] [0x02, 0x01, 65, 0x05, 66]
      0 2 (fun j => if j = 0 then [0x01, 65, 0x05, 66] else [0x05, 66]) example_elements
      (by decide)).2 1 [] stream_error.overrun
      (by
        intro i y hi hy
        have hi0 : i = 0 := by omega
        subst hi0
        have hy2 : y = [120] := by simpa [resize] using hy.symm
        subst hy2
        decide)
      (by decide) (by decide)⟩

/-! ## C17: the availability check of sequences of arithmetic elements -/

theorem finRange_drop (n I : Nat) (h : I < n) :
    (List.finRange n).drop I = (⟨I, h⟩ : Fin n) :: (List.finRange n).drop (I + 1) := by
  rw [List.drop_eq_getElem_cons (by simpa using h)]
  simp

theorem fields_after_error {n : Nat} {T : Fin n → Type}
    (dec : (k : Fin n) → T k → Stream → Ret (T k)) (ks : List (Fin n)) :
    ∀ (st : Ret (aggregate T)) (e : stream_error), st.r = .error e →
      ks.foldl (field_from_bin dec) st = st := by
  induction ks with
  | nil => intro st e _; rfl
  | cons k ks ih =>
    intro st e h
    have hstep : field_from_bin dec st k = st := by simp [field_from_bin, h]
    rw [List.foldl_cons, hstep]
    exact ih st e h

theorem field_from_bin_ok {n : Nat} {T : Fin n → Type}
    (dec : (k : Fin n) → T k → Stream → Ret (T k)) (st : Ret (aggregate T)) (k : Fin n)
    (h : st.r = .ok ()) :
    field_from_bin dec st k
      = ⟨(dec k (st.dest k) st.stream).r,
          Function.update st.dest k (dec k (st.dest k) st.stream).dest,
          (dec k (st.dest k) st.stream).stream⟩ := by
  simp [field_from_bin, h]

/-- The field loop from field `I` on, when every field decodes: field `k` is decoded at
position `pos k` into `val k`. -/
theorem struct_fields_ok {n : Nat} {T : Fin n → Type}
    (dec : (k : Fin n) → T k → Stream → Ret (T k)) (obj val : aggregate T)
    (pos : Nat → Stream)
    (hchain : ∀ k : Fin n, dec k (obj k) (pos k.val) = ⟨.ok (), val k, pos (k.val + 1)⟩)
    (d : Nat) :
    ∀ (I : Nat) (st : Ret (aggregate T)), I + d = n → st.r = .ok () → st.stream = pos I →
      (∀ k : Fin n, I ≤ k.val → st.dest k = obj k) →
      (((List.finRange n).drop I).foldl (field_from_bin dec) st).r = .ok () ∧
      (((List.finRange n).drop I).foldl (field_from_bin dec) st).stream = pos n ∧
      (∀ k : Fin n, k.val < I →
        (((List.finRange n).drop I).foldl (field_from_bin dec) st).dest k = st.dest k) ∧
      (∀ k : Fin n, I ≤ k.val →
        (((List.finRange n).drop I).foldl (field_from_bin dec) st).dest k = val k) := by
  induction d with
  | zero =>
    intro I st hI hr hs _
    have hIn : I = n := by omega
    subst hIn
    rw [List.drop_eq_nil_of_le (by simp)]
    refine ⟨hr, hs, fun _ _ => rfl, ?_⟩
    intro k hk
    exact absurd k.isLt (by omega)
  | succ d ih =>
    intro I st hI hr hs hobj
    have hlt : I < n := by omega
    rw [finRange_drop n I hlt, List.foldl_cons, field_from_bin_ok dec st _ hr,
      hobj ⟨I, hlt⟩ (Nat.le_refl I), hs, hchain ⟨I, hlt⟩]
    obtain ⟨h1, h2, h3, h4⟩ := ih (I + 1)
      ⟨.ok (), Function.update st.dest ⟨I, hlt⟩ (val ⟨I, hlt⟩), pos (I + 1)⟩ (by omega) rfl rfl
      (by
        intro k hk
        have hne : k ≠ ⟨I, hlt⟩ := by
          intro heq
          rw [heq] at hk
          exact absurd hk (by simp)
        simp only [Function.update_noteq hne]
        exact hobj k (by omega))
    refine ⟨h1, h2, ?_, ?_⟩
    · intro k hk
      rw [h3 k (by omega)]
      have hne : k ≠ ⟨I, hlt⟩ := by
        intro heq
        rw [heq] at hk
        exact absurd hk (by simp)
      simp only [Function.update_noteq hne]
    · intro k hk
      by_cases hkI : k.val = I
      · have heq : k = ⟨I, hlt⟩ := Fin.ext hkI
        rw [h3 k (by omega), heq]
        simp only [Function.update_same]
      · exact h4 k (by omega)

/-- The field loop from field `I` on, when field `k` is the first that fails. -/
theorem struct_fields_fail {n : Nat} {T : Fin n → Type}
    (dec : (k : Fin n) → T k → Stream → Ret (T k)) (obj val : aggregate T)
    (pos : Nat → Stream) (k : Fin n) (e : stream_error)
    (hchain : ∀ j : Fin n, j.val < k.val →
      dec j (obj j) (pos j.val) = ⟨.ok (), val j, pos (j.val + 1)⟩)
    (hfail : (dec k (obj k) (pos k.val)).r = .error e) (d : Nat) :
    ∀ (I : Nat) (st : Ret (aggregate T)), I + d = k.val → st.r = .ok () → st.stream = pos I →
      (∀ j : Fin n, I ≤ j.val → st.dest j = obj j) →
      (((List.finRange n).drop I).foldl (field_from_bin dec) st).r = .error e ∧
      (((List.finRange n).drop I).foldl (field_from_bin dec) st).stream
        = (dec k (obj k) (pos k.val)).stream ∧
      (∀ j : Fin n, j.val < I →
        (((List.finRange n).drop I).foldl (field_from_bin dec) st).dest j = st.dest j) ∧
      (∀ j : Fin n, I ≤ j.val → j.val < k.val →
        (((List.finRange n).drop I).foldl (field_from_bin dec) st).dest j = val j) ∧
      (((List.finRange n).drop I).foldl (field_from_bin dec) st).dest k
        = (dec k (obj k) (pos k.val)).dest ∧
      (∀ j : Fin n, k.val < j.val →
        (((List.finRange n).drop I).foldl (field_from_bin dec) st).dest j = obj j) := by
  induction d with
  | zero =>
    intro I st hI hr hs hobj
    have hIk : I = k.val := by omega
    subst hIk
    have hk : (⟨k.val, k.isLt⟩ : Fin n) = k := rfl
    rw [finRange_drop n k.val k.isLt, List.foldl_cons, hk, field_from_bin_ok dec st k hr,
      hobj k (Nat.le_refl _), hs,
      fields_after_error dec _ _ e hfail]
    refine ⟨hfail, rfl, ?_, ?_, ?_, ?_⟩
    · intro j hj
      have hne : j ≠ k := by
        intro heq
        rw [heq] at hj
        exact absurd hj (by simp)
      simp only [Function.update_noteq hne]
    · intro j h1 h2
      omega
    · simp only [Function.update_same]
    · intro j hj
      have hne : j ≠ k := by
        intro heq
        rw [heq] at hj
        exact absurd hj (by simp)
      simp only [Function.update_noteq hne]
      exact hobj j (by omega)
  | succ d ih =>
    intro I st hI hr hs hobj
    have hlt : I < n := by have := k.isLt; omega
    have hIk : I < k.val := by omega
    rw [finRange_drop n I hlt, List.foldl_cons, field_from_bin_ok dec st _ hr,
      hobj ⟨I, hlt⟩ (Nat.le_refl I), hs, hchain ⟨I, hlt⟩ hIk]
    obtain ⟨h1, h2, h3, h4, h5, h6⟩ := ih (I + 1)
      ⟨.ok (), Function.update st.dest ⟨I, hlt⟩ (val ⟨I, hlt⟩), pos (I + 1)⟩ (by omega) rfl rfl
      (by
        intro j hj
        have hne : j ≠ ⟨I, hlt⟩ := by
          intro heq
          rw [heq] at hj
          exact absurd hj (by simp)
        simp only [Function.update_noteq hne]
        exact hobj j (by omega))
    refine ⟨h1, h2, ?_, ?_, h5, h6⟩
    · intro j hj
      rw [h3 j (by omega)]
      have hne : j ≠ ⟨I, hlt⟩ := by
        intro heq
        rw [heq] at hj
        exact absurd hj (by simp)
      simp only [Function.update_noteq hne]
    · intro j hj1 hj2
      by_cases hjI : j.val = I
      · have heq : j = ⟨I, hlt⟩ := Fin.ext hjI
        rw [h3 j (by omega), heq]
        simp only [Function.update_same]
      · exact h4 j (by omega) hj2

theorem Ret_eq {α : Type} (a : Ret α) (r : result) (d : α) (s : Stream)
    (h1 : a.r = r) (h2 : a.dest = d) (h3 : a.stream = s) : a = ⟨r, d, s⟩ := by
  cases a
  simp only at h1 h2 h3
  rw [h1, h2, h3]

theorem flatten_drop_finRange {n : Nat} (enc : Fin n → List Byte) (rest : Stream)
    (k : Fin n) :
    (((List.finRange n).drop k.val).map enc).flatten ++ rest
      = enc k ++ ((((List.finRange n).drop (k.val + 1)).map enc).flatten ++ rest) := by
  rw [finRange_drop n k.val k.isLt, List.map_cons, List.flatten_cons, List.append_assoc]

/-- C11. For an aggregate with fields `f_0, ..., f_(n-1)`, when `enc k` is an encoding of the
value `val k` for the decoder of field `k` (run on the field as it stands before the call,
it yields `val k` and consumes exactly `enc k`), `from_bin` on the concatenation of
`enc 0, ..., enc (n-1)` followed by `rest` succeeds, sets every field `k` to `val k` and
leaves exactly `rest` unread. -/
theorem struct_decode_in_order {n : Nat} {T : Fin n → Type}
    (dec : (k : Fin n) → T k → Stream → Ret (T k)) (obj val : aggregate T)
    (enc : Fin n → List Byte) (rest : Stream)
    (henc : ∀ (k : Fin n) (tail : Stream),
      dec k (obj k) (enc k ++ tail) = ⟨.ok (), val k, tail⟩) :
    from_bin_struct dec obj (((List.finRange n).map enc).flatten ++ rest)
      = ⟨.ok (), val, rest⟩ := by
  have hchain : ∀ k : Fin n,
      dec k (obj k) ((fun I => (((List.finRange n).drop I).map enc).flatten ++ rest) k.val)
        = ⟨.ok (), val k,
            (fun I => (((List.finRange n).drop I).map enc).flatten ++ rest) (k.val + 1)⟩ := by
    intro k
    simp only
    rw [flatten_drop_finRange enc rest k]
    exact henc k _
  obtain ⟨h1, h2, _, h4⟩ := struct_fields_ok dec obj val
    (fun I => (((List.finRange n).drop I).map enc).flatten ++ rest) hchain n 0
    ⟨.ok (), obj, ((List.finRange n).map enc).flatten ++ rest⟩ (by omega) rfl rfl
    (fun _ _ => rfl)
  simp only [List.drop_zero] at h1 h2 h4
  have hend : (((List.finRange n).drop n).map enc).flatten ++ rest = rest := by
    rw [List.drop_eq_nil_of_le (by simp)]
    rfl
  rw [hend] at h2
  have hdest : (from_bin_struct dec obj (((List.finRange n).map enc).flatten ++ rest)).dest
      = val := funext (fun k => h4 k (Nat.zero_le _))
  exact Ret_eq _ _ _ _ h1 hdest h2

/-- C12. When the decoder of field `k` is the first to fail, with error `e` (the fields before
it decode, field `j` at position `pos j` into `val j`), `from_bin` on the aggregate returns
`e`, the fields before `k` hold the decoded values, field `k` is what its decoder left, the
fields after `k` hold their pre-call values, and the stream stays where the decoder of field
`k` left it. -/
theorem struct_decode_short_circuit {n : Nat} {T : Fin n → Type}
    (dec : (k : Fin n) → T k → Stream → Ret (T k)) (obj val : aggregate T)
    (pos : Nat → Stream) (k : Fin n) (e : stream_error)
    (hchain : ∀ j : Fin n, j.val < k.val →
      dec j (obj j) (pos j.val) = ⟨.ok (), val j, pos (j.val + 1)⟩)
    (hfail : (dec k (obj k) (pos k.val)).r = .error e) :
    (from_bin_struct dec obj (pos 0)).r = .error e ∧
    (∀ j : Fin n, j.val < k.val → (from_bin_struct dec obj (pos 0)).dest j = val j) ∧
    (from_bin_struct dec obj (pos 0)).dest k = (dec k (obj k) (pos k.val)).dest ∧
    (∀ j : Fin n, k.val < j.val → (from_bin_struct dec obj (pos 0)).dest j = obj j) ∧
    (from_bin_struct dec obj (pos 0)).stream = (dec k (obj k) (pos k.val)).stream := by
  obtain ⟨h1, h2, _, h4, h5, h6⟩ := struct_fields_fail dec obj val pos k e hchain hfail
    k.val 0 ⟨.ok (), obj, pos 0⟩ (by omega) rfl rfl (fun _ _ => rfl)
  simp only [List.drop_zero] at h1 h2 h4 h5 h6
  exact ⟨h1, fun j hj => h4 j (Nat.zero_le _) hj, h5, h6, h2⟩

theorem from_bin_string_encode (s : List Byte) (hL : s.length < 2 ^ 32) (obj : List Byte)
    (rest : Stream) :
    from_bin_string obj (varuint_encode s.length ++ (s ++ rest)) = ⟨.ok (), s, rest⟩ := by
  have hp := varuint32_from_bin_encode s.length hL 0 (s ++ rest)
  simp only [from_bin_string, hp, resize_length]
  rw [stream_read_append s rest s.length rfl]

/-- The example of the specification: for fields `(a: int32, b: text)` the buffer made of the
encodings of `a = 42` and `b = "abc"` populates both fields. -/
theorem struct_decode_in_order_witness :
    from_bin_struct example_field_dec example_obj
        ([0x2a, 0x00, 0x00, 0x00, 0x03, 97, 98, 99] ++ [0x05])
      = ⟨.ok (), example_val, [0x05]⟩ :=
  struct_decode_in_order example_field_dec example_obj example_val example_enc [0x05]
    (by
      intro k tail
      fin_cases k
      · exact from_bin_arithmetic_append int32_le 7 [0x2a, 0x00, 0x00, 0x00] tail rfl
      · exact from_bin_string_encode [97, 98, 99] (by decide) [120] tail)

/-- The example of the specification: with the length prefix of `b` corrupted to 9, which
exceeds the remaining bytes, `from_bin` fails on `b` with the stream's error and `a` is
populated with 42. -/
theorem struct_decode_short_circuit_witness :
    (from_bin_struct example_field_dec example_obj (example_field_positions 0)).r
      = .error stream_error.overrun ∧
    (from_bin_struct example_field_dec example_obj (example_field_positions 0)).dest 0
      = example_val 0 ∧
    (from_bin_struct example_field_dec example_obj (example_field_positions 0)).stream
      = [97, 98, 99] :=
  have h := struct_decode_short_circuit example_field_dec example_obj example_val
    example_field_positions 1 stream_error.overrun
    (by
      intro j hj
      fin_cases j
      · rfl
      · exact absurd hj (by decide))
    (by rfl)
  ⟨h.1, h.2.1 0 (by decide), h.2.2.2.2⟩

end eosio
